import Mathlib

/-!
# Verification of the fetch-and-linearize engine of the `hn` client

This file gives a shallow embedding of the core of `src/api/client.rs`:
the breadth-first depth-bounded comment walker (`fetch_comments_flat`),
the depth-first linearizer (`build_tree`, `build_comment_tree`,
`order_cached_comments`), and the paging/cache logic of `fetch_stories`
and `fetch_stories_by_ids`.  Rust `HashMap<u64, T>` values are embedded
as association lists `List (Nat × T)` whose lookup takes the first
matching key and whose removal drops every binding of the key (a
`HashMap` holds at most one binding per key, so on the images of the
source operations the two representations agree).  Rust `HashSet<u64>`
is embedded as a `List Nat` used only through membership.  The async
fan-out/fan-in (`join_all`) preserves the order of the issued futures,
so one level of the walker is embedded as a left-to-right traversal of
the frontier.  Network and storage are oracles passed in as functions.

Types that live in files of the repository that were not provided
(`api/types.rs`, `api/error.rs`, the storage layer) are modelled from
the specification and marked as such in their doc comments.
-/

set_option autoImplicit false

namespace HnCore

/-! ## Definitions: the data model, the embedded operations, the
specification-side forest, and the concrete inputs of the witnesses -/

/-- Modelled from the spec: the error taxonomy of §7 (`Transport`,
`HttpStatus`, `Parse`, `Storage`); the enum itself is declared in the
repository's `api/error.rs`, which is not among the provided sources. -/
inductive ApiError where
  | transport (msg : String)
  | httpStatus (code : Nat) (reason : String)
  | parse (msg : String)
  | storage (msg : String)
  deriving Repr, DecidableEq

/-- The raw item returned by the item API.  Field list taken from the
`Clone for HnItem` implementation in `src/api/client.rs`; the source
field `by` is renamed `author` (`by` is a Lean keyword) and `type` is
`item_type` as in the source. -/
structure HnItem where
  id : Nat
  item_type : Option String := none
  author : Option String := none
  time : Option Nat := none
  text : Option String := none
  url : Option String := none
  score : Option Nat := none
  title : Option String := none
  descendants : Option Nat := none
  kids : List Nat := []
  parent : Option Nat := none
  deleted : Option Bool := none
  dead : Option Bool := none
  deriving Repr, DecidableEq

/-- Modelled from the spec: a Record/Comment (§3) is a projection of an
Item plus a depth (distance from the thread root) and the same ordered
children sequence; the concrete struct is declared in the repository's
`api/types.rs`, which is not among the provided sources.  The fields
used by `client.rs` (`id`, `kids`, `depth`) are kept under their source
names. -/
structure Comment where
  id : Nat
  author : Option String := none
  created_at : Nat := 0
  body : Option String := none
  kids : List Nat := []
  depth : Nat := 0
  deriving Repr, DecidableEq

/-- Modelled from the spec: a Story record (§3, §6); the concrete struct
is declared in the repository's `api/types.rs` (not provided).  Field
names follow the `StorableStory` literal visible in the tests of
`src/api/client.rs` (`by` renamed `author`). -/
structure Story where
  id : Nat
  title : String := ""
  url : Option String := none
  score : Nat := 0
  author : String := ""
  time : Nat := 0
  descendants : Nat := 0
  kids : List Nat := []
  deriving Repr, DecidableEq

/-- Modelled from the spec: total projection underlying
`Comment::from_item` — §3: "a projection of Item plus a depth ... and
the same `children` ordered sequence". -/
def Comment.ofItem (item : HnItem) (depth : Nat) : Comment :=
  { id := item.id
    author := item.author
    created_at := item.time.getD 0
    body := item.text
    kids := item.kids
    depth := depth }

/-- Modelled from the spec: `Comment::from_item` (declared in the
missing `api/types.rs`).  §3 describes the Record as a projection of the
Item with the walk depth; no failure mode is specified, so the
projection always succeeds. -/
def Comment.from_item (item : HnItem) (depth : Nat) : Option Comment :=
  some (Comment.ofItem item depth)

/-- Modelled from the spec: `Story::from_item` (declared in the missing
`api/types.rs`).  A story record needs the non-optional `title` and
`by` fields of `StorableStory`, so items lacking them do not project. -/
def Story.from_item (item : HnItem) : Option Story :=
  match item.title, item.author with
  | some t, some a =>
      some { id := item.id
             title := t
             url := item.url
             score := item.score.getD 0
             author := a
             time := item.time.getD 0
             descendants := item.descendants.getD 0
             kids := item.kids }
  | _, _ => none

/-- Lookup: the value bound to key `k` (`HashMap::get`/`remove`'s view).
On lists with at most one binding per key — the image of `HashMap` —
taking the first match is exact. -/
def findItem {T : Type} (m : List (Nat × T)) (k : Nat) : Option T :=
  match m.find? (fun p => p.1 == k) with
  | some p => some p.2
  | none => none

/-- Removal: drops every binding of `k` (`HashMap::remove` leaves no
binding of the key behind). -/
def eraseItem {T : Type} (m : List (Nat × T)) (k : Nat) : List (Nat × T) :=
  m.filter (fun p => p.1 != k)

/-- Insertion with overwrite (`HashMap::insert`). -/
def insertItem {T : Type} (m : List (Nat × T)) (k : Nat) (v : T) : List (Nat × T) :=
  (k, v) :: eraseItem m k

/-- The key list of the map (`HashMap::keys`). -/
def mapKeys {T : Type} (m : List (Nat × T)) : List Nat :=
  m.map Prod.fst

/-- The loop of `build_tree`: pop `(id, depth)`; if the id is bound in
the map, remove it, push its children at `depth + 1`, and emit the
converted record (parent first: pre-order). -/
def buildTreeGo {T : Type} (get_kids : T → List Nat) (to_comment : T → Nat → Option Comment) :
    List (Nat × T) → List (Nat × Nat) → List Comment
  | _, [] => []
  | m, (id, depth) :: rest =>
    match h : findItem m id with
    | none => buildTreeGo get_kids to_comment m rest
    | some item =>
      match to_comment item depth with
      | some c =>
        c :: buildTreeGo get_kids to_comment (eraseItem m id)
          ((get_kids item).map (fun k => (k, depth + 1)) ++ rest)
      | none =>
        buildTreeGo get_kids to_comment (eraseItem m id)
          ((get_kids item).map (fun k => (k, depth + 1)) ++ rest)
termination_by m s => (m.length, s.length)
decreasing_by
  · exact Prod.Lex.right _ (by simp)
  · refine Prod.Lex.left _ _ ?_
    unfold eraseItem
    rw [List.length_filter_lt_length_iff_exists]
    unfold findItem at h
    cases hf : m.find? (fun p => p.1 == id) with
    | none => rw [hf] at h; exact absurd h (by simp)
    | some p =>
      refine ⟨p, List.mem_of_find?_eq_some hf, ?_⟩
      have := List.find?_some hf
      simp_all

/-- `build_tree` (src/api/client.rs:210-235): DFS over the map from the
root child list, each root entry at depth 0. -/
def build_tree {T : Type} (items : List (Nat × T)) (root_kids : List Nat)
    (get_kids : T → List Nat) (to_comment : T → Nat → Option Comment) : List Comment :=
  buildTreeGo get_kids to_comment items (root_kids.map (fun id => (id, 0)))

/-- `build_comment_tree` (src/api/client.rs:242-256): pre-filter each
retained item's `kids`, keeping a child iff it was never attempted or is
present in the retained map, then run the DFS walk. -/
def build_comment_tree (items : List (Nat × HnItem)) (attempted : List Nat)
    (root_kids : List Nat) : List Comment :=
  let present := mapKeys items
  let filtered := items.map (fun p =>
    (p.1, { p.2 with kids := (p.2.kids.filter
      (fun kid_id => !attempted.contains kid_id || present.contains kid_id)) }))
  build_tree filtered root_kids (fun item => item.kids) Comment.from_item

/-- `order_cached_comments` (src/api/client.rs:259-263): key the cached
records by id and replay the DFS walk from the stored children arrays.
(The Rust `collect::<HashMap<_,_>>` keeps the last binding of a
duplicated id; the cached record sets produced by this client have
pairwise distinct ids, where first and last binding agree.) -/
def order_cached_comments (cached : List Comment) (root_kids : List Nat) : List Comment :=
  let by_id := cached.map (fun c => (c.id, c))
  build_tree by_id root_kids (fun c => c.kids) (fun c _depth => some c)

/-- `find_parent_id` (src/api/client.rs:199-204). -/
def find_parent_id (comments : List Comment) (comment_id : Nat) : Option Nat :=
  (comments.find? (fun c => c.kids.contains comment_id)).map (fun c => c.id)

def ProjKeyed {T : Type} (proj : T → Nat → Comment) (m : List (Nat × T)) : Prop :=
  ∀ p ∈ m, ∀ d, (proj p.2 d).id = p.1

/-- Modelled from the spec: the persisted record shape of §6 —
`(id, root_scope_id, parent_id, author, created_at, body,
children_ids_ordered, depth)`.  `StorableComment` is declared in the
repository's storage layer, which is not among the provided sources. -/
structure StorableComment where
  id : Nat
  story_id : Nat
  parent_id : Option Nat
  author : Option String
  created_at : Nat
  body : Option String
  kids : List Nat
  depth : Nat
  deriving Repr, DecidableEq

/-- Modelled from the spec: `StorableComment::from_comment` (missing
storage layer) packs a record with its scope key and resolved parent id
(§4.4, §6). -/
def StorableComment.from_comment (c : Comment) (story_id : Nat)
    (parent_id : Option Nat) : StorableComment :=
  { id := c.id
    story_id := story_id
    parent_id := parent_id
    author := c.author
    created_at := c.created_at
    body := c.body
    kids := c.kids
    depth := c.depth }

/-- Modelled from the spec: the `impl From<StorableComment> for Comment`
conversion applied to each record loaded from the cache (`c.into()` in
`fetch_comments_flat`). -/
def StorableComment.toComment (s : StorableComment) : Comment :=
  { id := s.id
    author := s.author
    created_at := s.created_at
    body := s.body
    kids := s.kids
    depth := s.depth }

/-- The write-through step of `fetch_comments_flat`
(src/api/client.rs:183-192): each comment is packed with the story id
and its resolved parent. -/
def persistComments (story_id : Nat) (comments : List Comment) : List StorableComment :=
  comments.map (fun c => StorableComment.from_comment c story_id (find_parent_id comments c.id))

/-- Modelled from the spec: `save` followed by `get_all` returns the
saved record set (§4.4 "write-through, idempotent"); the cache-hit
branch of `fetch_comments_flat` then converts each record back. -/
def loadComments (stored : List StorableComment) : List Comment :=
  stored.map StorableComment.toComment

/-- The retained-map well-formedness used throughout: the map is keyed
by each item's own id (the walker stores `items.insert(id, item)` with
`item` the response for `id`). -/
def KeyedById (items : List (Nat × HnItem)) : Prop :=
  ∀ p ∈ items, p.2.id = p.1

instance (items : List (Nat × HnItem)) : Decidable (KeyedById items) :=
  inferInstanceAs (Decidable (∀ p ∈ items, p.2.id = p.1))

/-- The seven-node tree of the spec's concrete scenario (§8):
`{1→[2,3], 2→[4,5], 3→[6], 6→[7]}`. -/
def exItems : List (Nat × HnItem) :=
  [(1, { id := 1, kids := [2, 3] }),
   (2, { id := 2, kids := [4, 5] }),
   (3, { id := 3, kids := [6] }),
   (4, { id := 4 }),
   (5, { id := 5 }),
   (6, { id := 6, kids := [7] }),
   (7, { id := 7 })]

inductive STree where
  | node (id : Nat) (children : List STree)
  deriving Repr

/-- All ids of a forest, in pre-order. -/
def STree.flatIds : List STree → List Nat
  | [] => []
  | STree.node i cs :: ts => i :: (STree.flatIds cs ++ STree.flatIds ts)

/-- The pre-order depth-first traversal of a forest with depths: each
node before all of its descendants, siblings in original order. -/
def preorderPairs (d : Nat) : List STree → List (Nat × Nat)
  | [] => []
  | STree.node i cs :: ts => (i, d) :: (preorderPairs (d + 1) cs ++ preorderPairs d ts)

/-- `Forms gk m ids ts`: walking `ids` against the map `m` (skipping
absent ids, recursing into `gk`-children of present ones) yields the
surviving forest `ts`. -/
inductive Forms {T : Type} (gk : T → List Nat) (m : List (Nat × T)) :
    List Nat → List STree → Prop
  | nil : Forms gk m [] []
  | skip {id : Nat} {ids : List Nat} {ts : List STree} :
      findItem m id = none → Forms gk m ids ts → Forms gk m (id :: ids) ts
  | found {id : Nat} {it : T} {ids : List Nat} {cs ts : List STree} :
      findItem m id = some it → Forms gk m (gk it) cs → Forms gk m ids ts →
      Forms gk m (id :: ids) (STree.node id cs :: ts)

/-- Erasing a batch of keys, left to right. -/
def eraseMany {T : Type} (m : List (Nat × T)) : List Nat → List (Nat × T)
  | [] => m
  | k :: ks => eraseMany (eraseItem m k) ks

/-- The explicit surviving forest of the seven-node scenario. -/
def exForest : List STree :=
  [STree.node 1
    [STree.node 2 [STree.node 4 [], STree.node 5 []],
     STree.node 3 [STree.node 6 [STree.node 7 []]]]]

/-- One BFS level (the loop body, src/api/client.rs:164-176): record
each frontier id as attempted; drop failures and tombstones; store
survivors keyed by id; and collect the next frontier from survivors'
children, in frontier order, when `depth < max_depth`. -/
def processLevel (fetch : Nat → Except ApiError HnItem) (max_depth depth : Nat) :
    List Nat → List (Nat × HnItem) → List Nat →
      List (Nat × HnItem) × List Nat × List Nat
  | [], items, attempted => (items, attempted, [])
  | id :: rest, items, attempted =>
    let att := attempted.insert id
    match fetch id with
    | .error _ => processLevel fetch max_depth depth rest items att
    | .ok item =>
      if item.deleted.getD false || item.dead.getD false then
        processLevel fetch max_depth depth rest items att
      else
        let next₁ := if depth < max_depth then item.kids else []
        let r := processLevel fetch max_depth depth rest (insertItem items id item) att
        (r.1, r.2.1, next₁ ++ r.2.2)

/-- The `while` loop of `fetch_comments_flat` (src/api/client.rs:160-179):
`while !to_fetch.is_empty() && depth <= max_depth`.  `depth` increases by
one per iteration, so the loop runs at most `max_depth + 1 - depth` more
times; that quantity is the structural fuel (`fuel = 0` exactly when
`depth > max_depth`).  Returns the retained map, the attempt set, and
the list of frontiers — each frontier being, in order, the ids passed to
`fetch_item` at that level. -/
def bfsWalkAux (fetch : Nat → Except ApiError HnItem) (max_depth : Nat) :
    Nat → Nat → List Nat → List (Nat × HnItem) → List Nat →
      List (Nat × HnItem) × List Nat × List (List Nat)
  | 0, _, _, items, attempted => (items, attempted, [])
  | fuel + 1, depth, to_fetch, items, attempted =>
    if to_fetch.isEmpty then (items, attempted, [])
    else
      let r := processLevel fetch max_depth depth to_fetch items attempted
      let w := bfsWalkAux fetch max_depth fuel (depth + 1) r.2.2 r.1 r.2.1
      (w.1, w.2.1, to_fetch :: w.2.2)

/-- The full traversal: frontier initialised to the story's children at
depth 0, empty map, empty attempt set. -/
def bfsWalk (fetch : Nat → Except ApiError HnItem) (max_depth : Nat)
    (story_kids : List Nat) : List (Nat × HnItem) × List Nat × List (List Nat) :=
  bfsWalkAux fetch max_depth (max_depth + 1) 0 story_kids [] []

/-- Modelled from the spec: the thread-cache oracle used by
`fetch_comments_flat`.  `get_fresh_comments story_id` is `some` exactly
when the Rust `let Ok(Some(cached))` pattern matches (read errors and
stale/missing entries both fall through as a miss, §4.4/§7);
`save_comments` is the write-through, which may fail with a storage
error. -/
structure CommentStorage where
  get_fresh_comments : Nat → Option (List StorableComment)
  save_comments : Nat → List StorableComment → Except ApiError Unit

/-- The guard of the cache-hit branch (src/api/client.rs:146-153). -/
def cacheHit (storage : Option CommentStorage) (force_refresh : Bool)
    (story_id : Nat) : Option (List StorableComment) :=
  if force_refresh then none
  else
    match storage with
    | none => none
    | some st => st.get_fresh_comments story_id

/-- `fetch_comments_flat` (src/api/client.rs:135-196): cache hit replays
the cached records; otherwise the BFS walk runs, the tree is built, and
the result is written through (`save_comments(...).await?` — the `?`
propagates a storage error). -/
def fetch_comments_flat (fetch : Nat → Except ApiError HnItem)
    (storage : Option CommentStorage) (story : Story) (max_depth : Nat)
    (force_refresh : Bool) : Except ApiError (List Comment) :=
  match cacheHit storage force_refresh story.id with
  | some cached => .ok (order_cached_comments (loadComments cached) story.kids)
  | none =>
    let w := bfsWalk fetch max_depth story.kids
    let comments := build_comment_tree w.1 w.2.1 story.kids
    match storage with
    | some st =>
      match st.save_comments story.id (persistComments story.id comments) with
      | .error e => .error e
      | .ok _ => .ok comments
    | none => .ok comments

/-- `PAGE_SIZE` (src/api/client.rs:11). -/
def PAGE_SIZE : Nat := 30

/-- `usize::MAX` on the 64-bit targets the client builds for
(src/api/client.rs:128 uses it as the sort key of an id that is not in
the input slice). -/
def USIZE_MAX : Nat := 2 ^ 64 - 1

/-- Modelled from the spec: the story-cache oracle of
`fetch_stories_by_ids`.  `get_fresh_story id` is `some` exactly when the
Rust `let Ok(Some(cached))` matches (errors and misses fall through);
`save_story` is the write-through. -/
structure StoryStorage where
  get_fresh_story : Nat → Option Story
  save_story : Story → Except ApiError Unit

/-- The cache scan of `fetch_stories_by_ids` (src/api/client.rs:86-99):
each input id, in order, either yields its cached story or joins
`to_fetch`. -/
def scanCache (get_fresh : Nat → Option Story) : List Nat → List Story × List Nat
  | [] => ([], [])
  | id :: rest =>
    let r := scanCache get_fresh rest
    match get_fresh id with
    | some s => (s :: r.1, r.2)
    | none => (r.1, id :: r.2)

/-- The write-through loop of `fetch_stories_by_ids`
(src/api/client.rs:116-120): stories saved in order, first error
propagated by `?`. -/
def saveAllStories (save : Story → Except ApiError Unit) : List Story → Except ApiError Unit
  | [] => .ok ()
  | s :: rest =>
    match save s with
    | .error e => .error e
    | .ok _ => saveAllStories save rest

/-- The `id_positions` lookup (src/api/client.rs:126-128): the index of
an id in the input slice, `usize::MAX` when absent.  (The Rust
`collect::<HashMap<_,_>>` over `enumerate` keeps the last index of a
duplicated id; the claims assume pairwise-distinct input ids, where
first and last index agree.) -/
def idPosition (ids : List Nat) (id : Nat) : Nat :=
  match ids.indexOf? id with
  | some i => i
  | none => USIZE_MAX

/-- The re-sort by original id order (src/api/client.rs:125-128).
`sort_by_key` is a stable sort by the position key; `List.mergeSort` is
the stable sort on lists. -/
def sortByPosition (ids : List Nat) (stories : List Story) : List Story :=
  stories.mergeSort (fun a b => decide (idPosition ids a.id ≤ idPosition ids b.id))

/-- `fetch_stories_by_ids` (src/api/client.rs:77-131): scan the cache
(unless forcing refresh), fetch the misses, drop failed fetches and
non-story items, write through (`?` on each save), append, and re-sort
by input position. -/
def fetch_stories_by_ids (fetch : Nat → Except ApiError HnItem)
    (storage : Option StoryStorage) (ids : List Nat) (force_refresh : Bool) :
    Except ApiError (List Story) :=
  let scan :=
    if force_refresh then (([] : List Story), ids)
    else
      match storage with
      | none => (([] : List Story), ids)
      | some st => scanCache st.get_fresh_story ids
  if scan.2.isEmpty then
    .ok (sortByPosition ids scan.1)
  else
    let fetched := (scan.2.filterMap (fun id => (fetch id).toOption)).filterMap Story.from_item
    match storage with
    | some st =>
      match saveAllStories st.save_story fetched with
      | .error e => .error e
      | .ok _ => .ok (sortByPosition ids (scan.1 ++ fetched))
    | none => .ok (sortByPosition ids (scan.1 ++ fetched))

/-- `fetch_stories` (src/api/client.rs:56-75): the feed-id fetch is an
oracle result; the page slice `&ids[start..end]` with
`end = (start + PAGE_SIZE).min(ids.len())` is `drop start` then
`take (end - start)`; an out-of-range page returns `Ok(vec![])`. -/
def fetch_stories (fetch : Nat → Except ApiError HnItem)
    (storage : Option StoryStorage) (feed_ids : Except ApiError (List Nat))
    (page : Nat) (force_refresh : Bool) : Except ApiError (List Story) :=
  match feed_ids with
  | .error e => .error e
  | .ok ids =>
    let start := page * PAGE_SIZE
    let end_idx := min (start + PAGE_SIZE) ids.length
    if start ≥ ids.length then .ok []
    else fetch_stories_by_ids fetch storage ((ids.drop start).take (end_idx - start)) force_refresh

/-- What one frontier id contributes to the next frontier: its item's
children when the fetch succeeded, the item is not tombstoned, and the
current depth is below the bound. -/
def levelContrib (fetch : Nat → Except ApiError HnItem) (max_depth depth : Nat)
    (id : Nat) : List Nat :=
  match fetch id with
  | .error _ => []
  | .ok item =>
    if item.deleted.getD false || item.dead.getD false then []
    else if depth < max_depth then item.kids else []

/-- The oracle of the C6/C7 witness: id 1 has children `[3, 4]`; id 3
fails with a transport error; id 4 succeeds; everything else fails. -/
def fetchW : Nat → Except ApiError HnItem := fun id =>
  if id = 1 then .ok { id := 1, kids := [3, 4] }
  else if id = 4 then .ok { id := 4, kids := [5] }
  else .error (.transport "timeout")

/-- The oracle of the C4 counterexample: only id 1 exists. -/
def fetchC4 : Nat → Except ApiError HnItem := fun id =>
  if id = 1 then .ok { id := 1 } else .error (.transport "t")

/-- A thread store whose write always fails. -/
def failCommentStorage : CommentStorage :=
  { get_fresh_comments := fun _ => none
    save_comments := fun _ _ => .error (.storage "disk full") }

/-- A story store whose write always fails. -/
def failStoryStorage : StoryStorage :=
  { get_fresh_story := fun _ => none
    save_story := fun _ => .error (.storage "disk full") }

/-- A story oracle for the feed write-through: id 1 is a story. -/
def fetchC9 : Nat → Except ApiError HnItem := fun id =>
  if id = 1 then .ok { id := 1, title := some "a", author := some "bob" }
  else .error (.transport "t")

/-- The forest hypothesis of the amended C5: duplicate-free root list,
duplicate-free children lists, no id referenced as a child of two
distinct parents, and no child reference pointing back at a root. -/
def ForestRefs (fetch : Nat → Except ApiError HnItem) (roots : List Nat) : Prop :=
  roots.Nodup ∧
  (∀ a it, fetch a = .ok it → it.kids.Nodup) ∧
  (∀ a b ita itb k, fetch a = .ok ita → fetch b = .ok itb →
    k ∈ ita.kids → k ∈ itb.kids → a = b) ∧
  (∀ a it, fetch a = .ok it → ∀ k ∈ it.kids, k ∉ roots)

/-- Provenance: an id on a frontier is a root or a child of a
successfully fetched id seen earlier. -/
def Prov (fetch : Nat → Except ApiError HnItem) (roots seen : List Nat) (k : Nat) : Prop :=
  k ∈ roots ∨ ∃ p ∈ seen, ∃ it, fetch p = .ok it ∧ k ∈ it.kids

/-- The acyclic two-parents counterexample oracle: `1 → [3]`, `2 → [3]`,
`3 → []`. -/
def fetchDiamond : Nat → Except ApiError HnItem := fun id =>
  if id = 1 then .ok { id := 1, kids := [3] }
  else if id = 2 then .ok { id := 2, kids := [3] }
  else if id = 3 then .ok { id := 3 }
  else .error (.transport "t")

/-- A rank that strictly increases along every parent→child reference of
`fetchDiamond`: the reference structure is acyclic. -/
def rankD : Nat → Nat := fun id => if id = 3 then 1 else 0

/-- The proper-tree oracle of the C5 witness: `1 → [2, 3]`, leaves 2, 3. -/
def fetchT : Nat → Except ApiError HnItem := fun id =>
  if id = 1 then .ok { id := 1, kids := [2, 3] }
  else if id = 2 then .ok { id := 2 }
  else if id = 3 then .ok { id := 3 }
  else .error (.transport "t")

/-- The input of the C3 witness: item 1 has children `[2, 3]`; 2 is
retained, 3 was attempted but is missing. -/
def ex3Items : List (Nat × HnItem) :=
  [(1, { id := 1, kids := [2, 3] }), (2, { id := 2 })]

/-- The record the C3 witness looks at: item 1 with child 3 pruned. -/
def ex3Comment : Comment :=
  { id := 1, kids := [2], depth := 0 }

/-! ## Theorems -/

theorem findItem_eq_none {T : Type} {m : List (Nat × T)} {k : Nat} :
    findItem m k = none ↔ k ∉ mapKeys m := by
  unfold findItem mapKeys
  cases h : m.find? (fun p => p.1 == k) with
  | none =>
    simp only [List.find?_eq_none] at h
    simp only [true_iff]
    intro hmem
    rcases List.mem_map.1 hmem with ⟨p, hp, hk⟩
    exact (by simpa using h p hp : p.1 ≠ k) hk
  | some p =>
    have hmem := List.mem_of_find?_eq_some h
    have hk := List.find?_some h
    simp only [beq_iff_eq] at hk
    simp only [reduceCtorEq, false_iff, not_not]
    exact List.mem_map.2 ⟨p, hmem, hk⟩

theorem findItem_mem {T : Type} {m : List (Nat × T)} {k : Nat} {v : T}
    (h : findItem m k = some v) : (k, v) ∈ m := by
  unfold findItem at h
  cases hf : m.find? (fun p => p.1 == k) with
  | none => rw [hf] at h; cases h
  | some p =>
    rw [hf] at h
    have hmem := List.mem_of_find?_eq_some hf
    have hk := List.find?_some hf
    simp only [beq_iff_eq] at hk
    cases h
    cases p with
    | mk a b => cases hk; exact hmem

theorem mem_keys_of_findItem {T : Type} {m : List (Nat × T)} {k : Nat} {v : T}
    (h : findItem m k = some v) : k ∈ mapKeys m :=
  List.mem_map.2 ⟨(k, v), findItem_mem h, rfl⟩

theorem findItem_isSome_of_mem_keys {T : Type} {m : List (Nat × T)} {k : Nat}
    (h : k ∈ mapKeys m) : ∃ v, findItem m k = some v := by
  cases hf : findItem m k with
  | none => exact absurd h (findItem_eq_none.1 hf)
  | some v => exact ⟨v, rfl⟩

theorem findItem_cons_self {T : Type} (m : List (Nat × T)) (k : Nat) (v : T) :
    findItem ((k, v) :: m) k = some v := by
  simp [findItem]

theorem mem_of_mem_eraseItem {T : Type} {m : List (Nat × T)} {k : Nat} {p : Nat × T}
    (h : p ∈ eraseItem m k) : p ∈ m :=
  (List.filter_sublist m).subset h

theorem eraseItem_sublist {T : Type} (m : List (Nat × T)) (k : Nat) :
    (eraseItem m k).Sublist m :=
  List.filter_sublist m

theorem not_mem_keys_eraseItem {T : Type} (m : List (Nat × T)) (k : Nat) :
    k ∉ mapKeys (eraseItem m k) := by
  intro h
  rcases List.mem_map.1 h with ⟨p, hp, hk⟩
  have := List.of_mem_filter hp
  simp [hk] at this

theorem mem_keys_of_mem_keys_eraseItem {T : Type} {m : List (Nat × T)} {k j : Nat}
    (h : j ∈ mapKeys (eraseItem m k)) : j ∈ mapKeys m := by
  rcases List.mem_map.1 h with ⟨p, hp, hk⟩
  exact List.mem_map.2 ⟨p, mem_of_mem_eraseItem hp, hk⟩

theorem find?_filter_imp {α : Type} {p q : α → Bool} (l : List α)
    (h : ∀ a, p a = true → q a = true) : (l.filter q).find? p = l.find? p := by
  induction l with
  | nil => rfl
  | cons a l ih =>
    by_cases hq : q a
    · by_cases hp : p a <;> simp [List.filter_cons, hq, List.find?_cons, hp, ih]
    · have hp : ¬p a = true := fun hpa => hq (h a hpa)
      simp [List.filter_cons, hq, List.find?_cons, hp, ih]

theorem findItem_eraseItem_ne {T : Type} {m : List (Nat × T)} {k j : Nat}
    (h : j ≠ k) : findItem (eraseItem m j) k = findItem m k := by
  unfold findItem eraseItem
  rw [find?_filter_imp]
  intro a ha
  simp only [beq_iff_eq] at ha
  simp only [bne_iff_ne, ne_eq, ha]
  exact fun e => h e.symm

theorem eraseItem_eq_self {T : Type} {m : List (Nat × T)} {k : Nat}
    (h : k ∉ mapKeys m) : eraseItem m k = m := by
  unfold eraseItem
  rw [List.filter_eq_self]
  intro p hp
  simp only [bne_iff_ne, ne_eq]
  intro hk
  exact h (List.mem_map.2 ⟨p, hp, hk⟩)

theorem eraseItem_length_lt {T : Type} {m : List (Nat × T)} {k : Nat} {v : T}
    (h : findItem m k = some v) : (eraseItem m k).length < m.length := by
  unfold eraseItem
  rw [List.length_filter_lt_length_iff_exists]
  unfold findItem at h
  cases hf : m.find? (fun p => p.1 == k) with
  | none => rw [hf] at h; exact absurd h (by simp)
  | some p =>
    refine ⟨p, List.mem_of_find?_eq_some hf, ?_⟩
    have := List.find?_some hf
    simp_all

theorem buildTreeGo_nil {T : Type} (gk : T → List Nat) (tc : T → Nat → Option Comment)
    (m : List (Nat × T)) : buildTreeGo gk tc m [] = [] := by
  rw [buildTreeGo.eq_def]

theorem buildTreeGo_cons_none {T : Type} (gk : T → List Nat) (tc : T → Nat → Option Comment)
    {m : List (Nat × T)} {id : Nat} (d : Nat) (rest : List (Nat × Nat))
    (h : findItem m id = none) :
    buildTreeGo gk tc m ((id, d) :: rest) = buildTreeGo gk tc m rest := by
  rw [buildTreeGo.eq_def]
  split <;> rename_i hx <;> (try split) <;> simp_all

theorem buildTreeGo_cons_found {T : Type} (gk : T → List Nat) (proj : T → Nat → Comment)
    {m : List (Nat × T)} {id : Nat} {item : T} (d : Nat) (rest : List (Nat × Nat))
    (h : findItem m id = some item) :
    buildTreeGo gk (fun it dp => some (proj it dp)) m ((id, d) :: rest) =
      proj item d :: buildTreeGo gk (fun it dp => some (proj it dp)) (eraseItem m id)
        ((gk item).map (fun k => (k, d + 1)) ++ rest) := by
  rw [buildTreeGo.eq_def]
  split <;> rename_i hx <;> (try split) <;> simp_all

theorem ProjKeyed.eraseItem {T : Type} {proj : T → Nat → Comment} {m : List (Nat × T)}
    (h : ProjKeyed proj m) (k : Nat) : ProjKeyed proj (eraseItem m k) :=
  fun p hp => h p (mem_of_mem_eraseItem hp)

theorem mapKeys_pairing (l : List Comment) :
    mapKeys (l.map (fun c => (c.id, c))) = l.map (fun c => c.id) := by
  simp [mapKeys, List.map_map]

theorem eraseItem_cons_self {T : Type} (t : List (Nat × T)) (k : Nat) (v : T) :
    eraseItem ((k, v) :: t) k = eraseItem t k := by
  simp [eraseItem, List.filter_cons]

/-- Every id the walk emits is a key of the map it started from. -/
theorem run_mem_keys {T : Type} (gk : T → List Nat) (proj : T → Nat → Comment) :
    ∀ (n : Nat) (m : List (Nat × T)), m.length = n → ProjKeyed proj m →
      ∀ (s : List (Nat × Nat)) (c : Comment),
        c ∈ buildTreeGo gk (fun it dp => some (proj it dp)) m s → c.id ∈ mapKeys m := by
  intro n
  induction n using Nat.strong_induction_on with
  | _ n ih =>
    intro m hm hwf s
    induction s with
    | nil =>
      intro c hc
      rw [buildTreeGo_nil] at hc
      cases hc
    | cons hd rest ihs =>
      obtain ⟨id, d⟩ := hd
      intro c hc
      cases hfind : findItem m id with
      | none =>
        rw [buildTreeGo_cons_none _ _ _ _ hfind] at hc
        exact ihs c hc
      | some item =>
        rw [buildTreeGo_cons_found gk proj _ _ hfind] at hc
        rcases List.mem_cons.1 hc with rfl | hc'
        · have := hwf _ (findItem_mem hfind) d
          rw [this]
          exact mem_keys_of_findItem hfind
        · have hlt := eraseItem_length_lt hfind
          have := ih _ (hm ▸ hlt) _ rfl (hwf.eraseItem id) _ c hc'
          exact mem_keys_of_mem_keys_eraseItem this

/-- The walk emits each id at most once: removal from the map on first
visit deduplicates, whatever shape (duplicate references, cycles) the
children arrays have. -/
theorem run_nodup {T : Type} (gk : T → List Nat) (proj : T → Nat → Comment) :
    ∀ (n : Nat) (m : List (Nat × T)), m.length = n → ProjKeyed proj m →
      ∀ (s : List (Nat × Nat)),
        ((buildTreeGo gk (fun it dp => some (proj it dp)) m s).map (fun c => c.id)).Nodup := by
  intro n
  induction n using Nat.strong_induction_on with
  | _ n ih =>
    intro m hm hwf s
    induction s with
    | nil =>
      rw [buildTreeGo_nil]
      exact List.nodup_nil
    | cons hd rest ihs =>
      obtain ⟨id, d⟩ := hd
      cases hfind : findItem m id with
      | none =>
        rw [buildTreeGo_cons_none _ _ _ _ hfind]
        exact ihs
      | some item =>
        rw [buildTreeGo_cons_found gk proj _ _ hfind]
        have hlt := eraseItem_length_lt hfind
        refine List.Nodup.cons ?_ (ih _ (hm ▸ hlt) _ rfl (hwf.eraseItem id) _)
        intro hmem
        have hmem' : (proj item d).id ∈ (buildTreeGo gk (fun it dp => some (proj it dp))
            (eraseItem m id) ((gk item).map (fun k => (k, d + 1)) ++ rest)).map
              (fun c => c.id) := hmem
        rcases List.mem_map.1 hmem' with ⟨c, hc, hcid⟩
        have hkeys := run_mem_keys gk proj _ _ rfl (hwf.eraseItem id) _ c hc
        rw [hcid, hwf _ (findItem_mem hfind) d] at hkeys
        exact not_mem_keys_eraseItem m id hkeys

/-- Replaying the walk over its own output (keyed by id, children taken
from the emitted records) reproduces the output: the heart of
fresh/cache equivalence. -/
theorem run_replay {T : Type} (gk : T → List Nat) (proj : T → Nat → Comment)
    (hkids : ∀ (it : T) (d : Nat), (proj it d).kids = gk it) :
    ∀ (n : Nat) (m : List (Nat × T)), m.length = n → ProjKeyed proj m →
      ∀ (s : List (Nat × Nat)),
        buildTreeGo (fun c => c.kids) (fun c _depth => some c)
            ((buildTreeGo gk (fun it dp => some (proj it dp)) m s).map (fun c => (c.id, c))) s
          = buildTreeGo gk (fun it dp => some (proj it dp)) m s := by
  intro n
  induction n using Nat.strong_induction_on with
  | _ n ih =>
    intro m hm hwf s
    induction s with
    | nil => simp [buildTreeGo_nil]
    | cons hd rest ihs =>
      obtain ⟨id, d⟩ := hd
      cases hfind : findItem m id with
      | none =>
        rw [buildTreeGo_cons_none _ _ _ _ hfind]
        have hid : id ∉ mapKeys ((buildTreeGo gk (fun it dp => some (proj it dp)) m rest).map
            (fun c => (c.id, c))) := by
          rw [mapKeys_pairing]
          intro hmem
          rcases List.mem_map.1 hmem with ⟨c, hc, hcid⟩
          have := run_mem_keys gk proj _ _ rfl hwf _ c hc
          rw [hcid] at this
          exact findItem_eq_none.1 hfind this
        rw [buildTreeGo_cons_none _ _ _ _ (findItem_eq_none.2 hid)]
        exact ihs
      | some item =>
        rw [buildTreeGo_cons_found gk proj _ _ hfind]
        have hcid : (proj item d).id = id := hwf _ (findItem_mem hfind) d
        have hlt := eraseItem_length_lt hfind
        set out' := buildTreeGo gk (fun it dp => some (proj it dp)) (eraseItem m id)
          ((gk item).map (fun k => (k, d + 1)) ++ rest) with hout'
        have hfound : findItem (((proj item d) :: out').map (fun c => (c.id, c))) id
            = some (proj item d) := by
          rw [List.map_cons, hcid]
          exact findItem_cons_self _ id _
        rw [buildTreeGo_cons_found (fun c => c.kids) (fun c _depth => c) _ _ hfound]
        have hidout : id ∉ mapKeys (out'.map (fun c => (c.id, c))) := by
          rw [mapKeys_pairing]
          intro hmem
          rcases List.mem_map.1 hmem with ⟨c, hc, hcid'⟩
          have := run_mem_keys gk proj _ _ rfl (hwf.eraseItem id) _ c hc
          rw [hcid'] at this
          exact not_mem_keys_eraseItem m id this
        have herase : eraseItem (((proj item d) :: out').map (fun c => (c.id, c))) id
            = out'.map (fun c => (c.id, c)) := by
          rw [List.map_cons, hcid, eraseItem_cons_self, eraseItem_eq_self hidout]
        rw [herase, hkids item d]
        exact congrArg _ (ih _ (hm ▸ hlt) _ rfl (hwf.eraseItem id) _)

theorem load_persist (story_id : Nat) (comments : List Comment) :
    loadComments (persistComments story_id comments) = comments := by
  unfold loadComments persistComments
  rw [List.map_map]
  have h : (StorableComment.toComment ∘ fun c =>
      StorableComment.from_comment c story_id (find_parent_id comments c.id)) = id := rfl
  rw [h, List.map_id]

/-- `Comment.from_item` is the total projection. -/
theorem from_item_eq :
    Comment.from_item = fun it dp => some (Comment.ofItem it dp) := rfl

theorem projKeyed_filtered {items : List (Nat × HnItem)} (hwf : KeyedById items)
    (attempted : List Nat) :
    ProjKeyed Comment.ofItem (items.map (fun p =>
      (p.1, { p.2 with kids := (p.2.kids.filter
        (fun kid_id => !attempted.contains kid_id || (mapKeys items).contains kid_id)) }))) := by
  intro q hq d
  rcases List.mem_map.1 hq with ⟨p, hp, rfl⟩
  exact hwf p hp

/-- Step equation of the fresh walk, instantiated for evaluation. -/
theorem buildTreeGo_item_found {m : List (Nat × HnItem)} {id : Nat} {item : HnItem}
    (d : Nat) (rest : List (Nat × Nat)) (h : findItem m id = some item) :
    buildTreeGo (fun it => it.kids) Comment.from_item m ((id, d) :: rest) =
      Comment.ofItem item d :: buildTreeGo (fun it => it.kids) Comment.from_item (eraseItem m id)
        (item.kids.map (fun k => (k, d + 1)) ++ rest) :=
  buildTreeGo_cons_found (fun it => it.kids) Comment.ofItem d rest h

/-- Step equation of the cached walk, instantiated for evaluation. -/
theorem buildTreeGo_cached_found {m : List (Nat × Comment)} {id : Nat} {c : Comment}
    (d : Nat) (rest : List (Nat × Nat)) (h : findItem m id = some c) :
    buildTreeGo (fun x => x.kids) (fun x _depth => some x) m ((id, d) :: rest) =
      c :: buildTreeGo (fun x => x.kids) (fun x _depth => some x) (eraseItem m id)
        (c.kids.map (fun k => (k, d + 1)) ++ rest) :=
  buildTreeGo_cons_found (fun x => x.kids) (fun x _depth => x) d rest h

/-- C1, full-strength form: replaying the cache walk over the persisted
and re-loaded fresh records reproduces the fresh record list exactly. -/
theorem fresh_cache_roundtrip (items : List (Nat × HnItem)) (attempted : List Nat)
    (root_kids : List Nat) (story_id : Nat) (hwf : KeyedById items) :
    order_cached_comments
        (loadComments (persistComments story_id (build_comment_tree items attempted root_kids)))
        root_kids
      = build_comment_tree items attempted root_kids := by
  rw [load_persist]
  unfold order_cached_comments build_comment_tree build_tree
  rw [from_item_eq]
  exact run_replay (fun it => it.kids) Comment.ofItem (fun _ _ => rfl) _ _ rfl
    (projKeyed_filtered hwf attempted) _

/-- C1 — Fresh/cache equivalence: for every retained tree (a map keyed
by item id), building records via the fresh path
(`build_comment_tree`), persisting them, and reconstructing via the
cached path (`order_cached_comments` over those records and the same
root child list) yields an identical sequence of (id, depth, children)
triples in the same order. -/
theorem claim_C1_fresh_cache_equiv (items : List (Nat × HnItem)) (attempted : List Nat)
    (root_kids : List Nat) (story_id : Nat) (hwf : KeyedById items) :
    (order_cached_comments
        (loadComments (persistComments story_id (build_comment_tree items attempted root_kids)))
        root_kids).map (fun c => (c.id, c.depth, c.kids))
      = (build_comment_tree items attempted root_kids).map (fun c => (c.id, c.depth, c.kids)) :=
  congrArg _ (fresh_cache_roundtrip items attempted root_kids story_id hwf)

/-- Witness for C1 at the spec's seven-node scenario. -/
theorem claim_C1_witness :
    KeyedById exItems ∧
      (order_cached_comments
          (loadComments (persistComments 42 (build_comment_tree exItems [1, 2, 3, 4, 5, 6, 7] [1])))
          [1]).map (fun c => (c.id, c.depth, c.kids))
        = (build_comment_tree exItems [1, 2, 3, 4, 5, 6, 7] [1]).map
            (fun c => (c.id, c.depth, c.kids)) :=
  ⟨by decide, claim_C1_fresh_cache_equiv exItems [1, 2, 3, 4, 5, 6, 7] [1] 42 (by decide)⟩

/-- C8 — Defensive deduplication: for every items map (keyed by item id)
and root child list, including inputs whose children arrays hold
duplicate references or cycles, the `build_tree` walk (a total function:
its recursion is well-founded by the shrinking map) emits each
identifier at most once. -/
theorem claim_C8_dedup_terminates (items : List (Nat × HnItem)) (root_kids : List Nat)
    (hwf : KeyedById items) :
    ((build_tree items root_kids (fun item => item.kids) Comment.from_item).map
      (fun c => c.id)).Nodup := by
  unfold build_tree
  rw [from_item_eq]
  exact run_nodup (fun it => it.kids) Comment.ofItem _ _ rfl (fun p hp d => hwf p hp) _

/-- Witness for C8 at an input with a cycle and duplicate references
(`1 → [2]`, `2 → [1, 2]`, duplicated root). -/
theorem claim_C8_witness :
    KeyedById [(1, { id := 1, kids := [2] }), (2, { id := 2, kids := [1, 2] })] ∧
      ((build_tree [(1, ({ id := 1, kids := [2] } : HnItem)), (2, { id := 2, kids := [1, 2] })]
          [1, 1] (fun item => item.kids) Comment.from_item).map (fun c => c.id)).Nodup :=
  ⟨by decide,
    claim_C8_dedup_terminates
      [(1, { id := 1, kids := [2] }), (2, { id := 2, kids := [1, 2] })] [1, 1] (by decide)⟩

theorem eraseMany_append {T : Type} (m : List (Nat × T)) (a b : List Nat) :
    eraseMany m (a ++ b) = eraseMany (eraseMany m a) b := by
  induction a generalizing m with
  | nil => rfl
  | cons k ks ih => simp [eraseMany, ih]

theorem ProjKeyed.eraseManyKeys {T : Type} {proj : T → Nat → Comment} {m : List (Nat × T)}
    (h : ProjKeyed proj m) (ks : List Nat) : ProjKeyed proj (HnCore.eraseMany m ks) := by
  induction ks generalizing m with
  | nil => exact h
  | cons k ks ih => exact ih (h.eraseItem k)

/-- A surviving-forest derivation survives erasing a key outside the
forest. -/
theorem Forms.erase {T : Type} {gk : T → List Nat} {m : List (Nat × T)}
    {ids : List Nat} {ts : List STree} (h : Forms gk m ids ts) :
    ∀ {k : Nat}, k ∉ STree.flatIds ts → Forms gk (eraseItem m k) ids ts := by
  induction h with
  | nil => exact fun _ => Forms.nil
  | skip hf _ ih =>
    intro k hk
    refine Forms.skip ?_ (ih hk)
    rw [findItem_eq_none] at hf ⊢
    exact fun hmem => hf (mem_keys_of_mem_keys_eraseItem hmem)
  | found hf _ _ ihc iht =>
    intro k hk
    rw [STree.flatIds] at hk
    simp only [List.mem_cons, List.mem_append, not_or] at hk
    refine Forms.found ?_ (ihc hk.2.1) (iht hk.2.2)
    rw [findItem_eraseItem_ne hk.1]
    exact hf

theorem Forms.eraseManyOutside {T : Type} {gk : T → List Nat} {m : List (Nat × T)}
    {ids : List Nat} {ts : List STree} (h : Forms gk m ids ts) :
    ∀ (ks : List Nat), (∀ k ∈ ks, k ∉ STree.flatIds ts) →
      Forms gk (HnCore.eraseMany m ks) ids ts := by
  intro ks
  induction ks generalizing m with
  | nil => exact fun _ => h
  | cons k ks ih =>
    intro hk
    exact ih (h.erase (hk k (List.mem_cons_self k ks)))
      (fun j hj => hk j (List.mem_cons_of_mem k hj))

/-- The walk emits exactly the pre-order traversal of the surviving
forest, then continues on the rest of the stack with the forest's ids
consumed. -/
theorem preorder_run {T : Type} (gk : T → List Nat) (proj : T → Nat → Comment)
    (hdepth : ∀ (it : T) (d : Nat), (proj it d).depth = d) :
    ∀ (n : Nat) (ts : List STree), sizeOf ts ≤ n →
      ∀ (ids : List Nat) (m : List (Nat × T)), ProjKeyed proj m →
        Forms gk m ids ts → (STree.flatIds ts).Nodup →
        ∀ (d : Nat) (rest : List (Nat × Nat)),
          (buildTreeGo gk (fun it dp => some (proj it dp)) m
              (ids.map (fun i => (i, d)) ++ rest)).map (fun c => (c.id, c.depth))
            = preorderPairs d ts ++
              (buildTreeGo gk (fun it dp => some (proj it dp))
                (eraseMany m (STree.flatIds ts)) rest).map (fun c => (c.id, c.depth)) := by
  intro n
  induction n using Nat.strong_induction_on with
  | _ n ihn =>
    intro ts hts ids
    induction ids with
    | nil =>
      intro m hwf hforms hnd d rest
      cases hforms
      simp [STree.flatIds, preorderPairs, eraseMany]
    | cons id ids ihs =>
      intro m hwf hforms hnd d rest
      cases hforms with
      | skip hf hforms' =>
        rw [List.map_cons, List.cons_append, buildTreeGo_cons_none _ _ _ _ hf]
        exact ihs m hwf hforms' hnd d rest
      | found hf hcs hts' =>
        rename_i it cs ts'
        rw [STree.flatIds] at hnd
        simp only [List.nodup_cons, List.mem_append, not_or, List.nodup_append] at hnd
        obtain ⟨⟨hidcs, hidts⟩, hndcs, hndts, hdisj⟩ := hnd
        have hszcs : sizeOf cs < sizeOf (STree.node id cs :: ts') := by
          simp
          omega
        have hszts : sizeOf ts' < sizeOf (STree.node id cs :: ts') := by
          simp
        rw [List.map_cons, List.cons_append, buildTreeGo_cons_found gk proj _ _ hf]
        rw [List.map_cons]
        have hcid : (proj it d).id = id := hwf _ (findItem_mem hf) d
        have hstep1 := ihn (sizeOf cs) (by omega) cs le_rfl (gk it) (eraseItem m id)
          (hwf.eraseItem id) (hcs.erase hidcs) hndcs (d + 1)
          (ids.map (fun i => (i, d)) ++ rest)
        have hforms2 : Forms gk (eraseMany (eraseItem m id) (STree.flatIds cs)) ids ts' := by
          have herased := Forms.erase hts' hidts
          exact herased.eraseManyOutside (STree.flatIds cs) (fun k hk => fun hmem => hdisj hk hmem)
        have hstep2 := ihn (sizeOf ts') (by omega) ts' le_rfl ids
          (eraseMany (eraseItem m id) (STree.flatIds cs))
          ((hwf.eraseItem id).eraseManyKeys _) hforms2 hndts d rest
        rw [hstep1, hstep2]
        rw [preorderPairs, STree.flatIds, eraseMany, eraseMany_append]
        simp [hcid, hdepth it d]

/-- C2 — Pre-order invariant: for every retained map (keyed by item id)
whose children arrays form a forest reachable from the root child list
(`Forms` derivation with duplicate-free node set), the linearizer's
output, read left to right, is exactly the pre-order depth-first
traversal of the surviving tree, each record carrying the depth from
the walk (root-list entries at depth 0). -/
theorem claim_C2_preorder (items : List (Nat × HnItem)) (root_kids : List Nat)
    (ts : List STree) (hwf : KeyedById items)
    (hforms : Forms (fun it => it.kids) items root_kids ts)
    (hnd : (STree.flatIds ts).Nodup) :
    (build_tree items root_kids (fun item => item.kids) Comment.from_item).map
        (fun c => (c.id, c.depth)) = preorderPairs 0 ts := by
  unfold build_tree
  rw [from_item_eq]
  have := preorder_run (fun it => it.kids) Comment.ofItem (fun _ _ => rfl)
    (sizeOf ts) ts le_rfl root_kids items (fun p hp d => hwf p hp) hforms hnd 0 []
  rw [List.append_nil] at this
  rw [this, buildTreeGo_nil, List.map_nil, List.append_nil]

/-- Witness for C2 at the spec's seven-node scenario: order
`[1,2,4,5,3,6,7]`, depths `[0,1,2,2,1,2,3]`. -/
theorem claim_C2_witness :
    KeyedById exItems ∧ (STree.flatIds exForest).Nodup ∧
      (build_tree exItems [1] (fun item => item.kids) Comment.from_item).map
          (fun c => (c.id, c.depth)) = preorderPairs 0 exForest := by
  refine ⟨by decide, ?_, ?_⟩
  · simp only [exForest, STree.flatIds]
    decide
  · refine claim_C2_preorder exItems [1] exForest (by decide) ?_ ?_
    · exact Forms.found rfl
        (Forms.found rfl
          (Forms.found rfl Forms.nil (Forms.found rfl Forms.nil Forms.nil))
          (Forms.found rfl
            (Forms.found rfl (Forms.found rfl Forms.nil Forms.nil) Forms.nil)
            Forms.nil))
        Forms.nil
    · simp only [exForest, STree.flatIds]
      decide

/-- Every record the walk emits is the projection of an entry of the
starting map at some depth. -/
theorem run_emitted_from {T : Type} (gk : T → List Nat) (proj : T → Nat → Comment) :
    ∀ (n : Nat) (m : List (Nat × T)), m.length = n →
      ∀ (s : List (Nat × Nat)) (c : Comment),
        c ∈ buildTreeGo gk (fun it dp => some (proj it dp)) m s →
        ∃ p ∈ m, ∃ d, c = proj p.2 d := by
  intro n
  induction n using Nat.strong_induction_on with
  | _ n ihn =>
    intro m hm s
    induction s with
    | nil =>
      intro c hc
      rw [buildTreeGo_nil] at hc
      cases hc
    | cons hd rest ihs =>
      obtain ⟨id, d⟩ := hd
      intro c hc
      cases hfind : findItem m id with
      | none =>
        rw [buildTreeGo_cons_none _ _ _ _ hfind] at hc
        exact ihs c hc
      | some item =>
        rw [buildTreeGo_cons_found gk proj _ _ hfind] at hc
        rcases List.mem_cons.1 hc with rfl | hc'
        · exact ⟨(id, item), findItem_mem hfind, d, rfl⟩
        · have hlt := eraseItem_length_lt hfind
          rcases ihn _ (hm ▸ hlt) _ rfl _ c hc' with ⟨p, hp, dd, hcp⟩
          exact ⟨p, mem_of_mem_eraseItem hp, dd, hcp⟩

/-- C3 — Tombstone pruning: every record emitted by
`build_comment_tree` carries as children exactly those of its original
child ids that are present in the retained map or absent from the
Attempt Set; consequently an attempted-but-missing child is removed, a
never-attempted child is kept, and a node all of whose children were
attempted-and-missing ends up with an empty children list. -/
theorem claim_C3_tombstone_pruning (items : List (Nat × HnItem)) (attempted : List Nat)
    (root_kids : List Nat) (hwf : KeyedById items) :
    ∀ c ∈ build_comment_tree items attempted root_kids,
      ∃ it : HnItem, (c.id, it) ∈ items ∧
        c.kids = it.kids.filter
          (fun kid_id => !attempted.contains kid_id || (mapKeys items).contains kid_id) ∧
        (∀ kid ∈ it.kids, kid ∈ attempted → kid ∉ mapKeys items → kid ∉ c.kids) ∧
        (∀ kid ∈ it.kids, kid ∉ attempted → kid ∈ c.kids) ∧
        ((∀ kid ∈ it.kids, kid ∈ attempted ∧ kid ∉ mapKeys items) → c.kids = []) := by
  intro c hc
  unfold build_comment_tree build_tree at hc
  rw [from_item_eq] at hc
  rcases run_emitted_from (fun it => it.kids) Comment.ofItem _ _ rfl _ c hc
    with ⟨p, hp, d, rfl⟩
  rcases List.mem_map.1 hp with ⟨q, hq, rfl⟩
  have hck : (Comment.ofItem (q.1, { q.2 with kids := (q.2.kids.filter (fun kid_id =>
      !attempted.contains kid_id || (mapKeys items).contains kid_id)) }).2 d).kids
      = q.2.kids.filter (fun kid_id =>
        !attempted.contains kid_id || (mapKeys items).contains kid_id) := rfl
  refine ⟨q.2, ?_, hck, ?_, ?_, ?_⟩
  · have hid : q.2.id = q.1 := hwf q hq
    simpa [Comment.ofItem, hid] using hq
  · intro kid hkid hatt hpres hmem
    rw [hck] at hmem
    have hpred := List.of_mem_filter hmem
    simp only [Bool.or_eq_true, Bool.not_eq_eq_eq_not, Bool.not_true] at hpred
    rcases hpred with hnot | hin
    · simp only [List.contains_eq_any_beq] at hnot
      exact (by simpa using hnot : ∀ x ∈ attempted, ¬kid = x) kid hatt rfl
    · exact hpres (by simpa using hin)
  · intro kid hkid hatt
    rw [hck]
    refine List.mem_filter.2 ⟨hkid, ?_⟩
    simp [hatt]
  · intro hall
    rw [hck]
    rw [List.filter_eq_nil_iff]
    intro kid hkid
    rcases hall kid hkid with ⟨hatt, hpres⟩
    simp [hatt, hpres]

theorem processLevel_next_eq (fetch : Nat → Except ApiError HnItem) (max_depth depth : Nat) :
    ∀ (ids : List Nat) (items : List (Nat × HnItem)) (att : List Nat),
      (processLevel fetch max_depth depth ids items att).2.2
        = (ids.map (levelContrib fetch max_depth depth)).flatten := by
  intro ids
  induction ids with
  | nil => intro items att; rfl
  | cons id rest ih =>
    intro items att
    simp only [processLevel, levelContrib, List.map_cons, List.flatten_cons]
    cases hf : fetch id with
    | error e => simp [ih]
    | ok item =>
      by_cases htomb : item.deleted.getD false || item.dead.getD false
      · simp [htomb, ih]
      · by_cases hd : depth < max_depth
        · simp [htomb, hd, ih]
        · simp [htomb, hd, ih]

theorem processLevel_attempted (fetch : Nat → Except ApiError HnItem)
    (max_depth depth : Nat) :
    ∀ (ids : List Nat) (items : List (Nat × HnItem)) (att : List Nat) (id : Nat),
      id ∈ att ∨ id ∈ ids →
      id ∈ (processLevel fetch max_depth depth ids items att).2.1 := by
  intro ids
  induction ids with
  | nil =>
    intro items att id h
    rcases h with h | h
    · exact h
    · cases h
  | cons hd rest ih =>
    intro items att id h
    have hnext : id ∈ att.insert hd ∨ id ∈ rest := by
      rcases h with h | h
      · exact Or.inl (List.mem_insert_iff.2 (Or.inr h))
      · rcases List.mem_cons.1 h with rfl | h'
        · exact Or.inl (List.mem_insert_iff.2 (Or.inl rfl))
        · exact Or.inr h'
    simp only [processLevel]
    cases hf : fetch hd with
    | error e => exact ih items _ id hnext
    | ok item =>
      by_cases htomb : item.deleted.getD false || item.dead.getD false
      · simp only [htomb]
        exact ih items _ id hnext
      · simp only [htomb]
        exact ih (insertItem items hd item) _ id hnext

theorem processLevel_attempted_sub (fetch : Nat → Except ApiError HnItem)
    (max_depth depth : Nat) :
    ∀ (ids : List Nat) (items : List (Nat × HnItem)) (att : List Nat) (id : Nat),
      id ∈ (processLevel fetch max_depth depth ids items att).2.1 →
      id ∈ att ∨ id ∈ ids := by
  intro ids
  induction ids with
  | nil => exact fun items att id h => Or.inl h
  | cons hd rest ih =>
    intro items att id h
    have hstep : id ∈ att.insert hd ∨ id ∈ rest → id ∈ att ∨ id ∈ hd :: rest := by
      intro hc
      rcases hc with hc | hc
      · rcases List.mem_insert_iff.1 hc with rfl | hc'
        · exact Or.inr (List.mem_cons_self _ _)
        · exact Or.inl hc'
      · exact Or.inr (List.mem_cons_of_mem _ hc)
    simp only [processLevel] at h
    cases hf : fetch hd with
    | error e =>
      rw [hf] at h
      exact hstep (ih items _ id h)
    | ok item =>
      rw [hf] at h
      by_cases htomb : item.deleted.getD false || item.dead.getD false
      · simp only [htomb] at h
        exact hstep (ih items _ id h)
      · simp only [htomb] at h
        exact hstep (ih (insertItem items hd item) _ id h)

theorem mem_keys_insertItem {m : List (Nat × HnItem)} {k j : Nat} {v : HnItem}
    (h : j ∈ mapKeys (insertItem m k v)) : j = k ∨ j ∈ mapKeys m := by
  unfold insertItem mapKeys at h
  rcases List.mem_cons.1 h with h' | h'
  · exact Or.inl h'
  · exact Or.inr (mem_keys_of_mem_keys_eraseItem h')

theorem processLevel_keys_err (fetch : Nat → Except ApiError HnItem)
    (max_depth depth : Nat) :
    ∀ (ids : List Nat) (items : List (Nat × HnItem)) (att : List Nat) (id : Nat),
      (fetch id).isOk = false → id ∉ mapKeys items →
      id ∉ mapKeys (processLevel fetch max_depth depth ids items att).1 := by
  intro ids
  induction ids with
  | nil => exact fun items att id _ hni h => hni h
  | cons hd rest ih =>
    intro items att id herr hni h
    simp only [processLevel] at h
    cases hf : fetch hd with
    | error e =>
      rw [hf] at h
      exact ih items _ id herr hni h
    | ok item =>
      rw [hf] at h
      by_cases htomb : item.deleted.getD false || item.dead.getD false
      · simp only [htomb] at h
        exact ih items _ id herr hni h
      · simp only [htomb] at h
        refine ih (insertItem items hd item) _ id herr ?_ h
        intro hk
        rcases mem_keys_insertItem hk with rfl | hk'
        · rw [hf] at herr
          cases herr
        · exact hni hk'

theorem bfsWalkAux_levels_length (fetch : Nat → Except ApiError HnItem) (max_depth : Nat) :
    ∀ (fuel depth : Nat) (to_fetch : List Nat) (items : List (Nat × HnItem)) (att : List Nat),
      (bfsWalkAux fetch max_depth fuel depth to_fetch items att).2.2.length ≤ fuel := by
  intro fuel
  induction fuel with
  | zero => intro depth to_fetch items att; simp [bfsWalkAux]
  | succ fuel ih =>
    intro depth to_fetch items att
    by_cases he : to_fetch.isEmpty
    · simp [bfsWalkAux, he]
    · simp only [bfsWalkAux, he, if_false, List.length_cons]
      exact Nat.succ_le_succ (ih _ _ _ _)

theorem bfsWalkAux_calls_attempted (fetch : Nat → Except ApiError HnItem) (max_depth : Nat) :
    ∀ (fuel depth : Nat) (to_fetch : List Nat) (items : List (Nat × HnItem))
      (att : List Nat) (id : Nat),
      id ∈ att ∨ id ∈ (bfsWalkAux fetch max_depth fuel depth to_fetch items att).2.2.flatten →
      id ∈ (bfsWalkAux fetch max_depth fuel depth to_fetch items att).2.1 := by
  intro fuel
  induction fuel with
  | zero =>
    intro depth to_fetch items att id h
    rcases h with h | h
    · exact h
    · simp [bfsWalkAux] at h
  | succ fuel ih =>
    intro depth to_fetch items att id h
    by_cases he : to_fetch.isEmpty
    · simp only [bfsWalkAux, he, if_true] at h ⊢
      rcases h with h | h
      · exact h
      · simp at h
    · simp only [bfsWalkAux, he, if_false, List.flatten_cons] at h ⊢
      rcases h with h | h
      · exact ih _ _ _ _ id (Or.inl (processLevel_attempted fetch max_depth depth
          to_fetch items att id (Or.inl h)))
      · rcases List.mem_append.1 h with h' | h'
        · exact ih _ _ _ _ id (Or.inl (processLevel_attempted fetch max_depth depth
            to_fetch items att id (Or.inr h')))
        · exact ih _ _ _ _ id (Or.inr h')

theorem bfsWalkAux_attempted_sub (fetch : Nat → Except ApiError HnItem) (max_depth : Nat) :
    ∀ (fuel depth : Nat) (to_fetch : List Nat) (items : List (Nat × HnItem))
      (att : List Nat) (id : Nat),
      id ∈ (bfsWalkAux fetch max_depth fuel depth to_fetch items att).2.1 →
      id ∈ att ∨ id ∈ (bfsWalkAux fetch max_depth fuel depth to_fetch items att).2.2.flatten := by
  intro fuel
  induction fuel with
  | zero => exact fun depth to_fetch items att id h => Or.inl h
  | succ fuel ih =>
    intro depth to_fetch items att id h
    by_cases he : to_fetch.isEmpty
    · simp only [bfsWalkAux, he, if_true] at h ⊢
      exact Or.inl h
    · simp only [bfsWalkAux, he, if_false, List.flatten_cons] at h ⊢
      rcases ih _ _ _ _ id h with h' | h'
      · rcases processLevel_attempted_sub fetch max_depth depth to_fetch items att id h'
          with h'' | h''
        · exact Or.inl h''
        · exact Or.inr (List.mem_append.2 (Or.inl h''))
      · exact Or.inr (List.mem_append.2 (Or.inr h'))

theorem bfsWalkAux_keys_err (fetch : Nat → Except ApiError HnItem) (max_depth : Nat) :
    ∀ (fuel depth : Nat) (to_fetch : List Nat) (items : List (Nat × HnItem))
      (att : List Nat) (id : Nat),
      (fetch id).isOk = false → id ∉ mapKeys items →
      id ∉ mapKeys (bfsWalkAux fetch max_depth fuel depth to_fetch items att).1 := by
  intro fuel
  induction fuel with
  | zero => exact fun depth to_fetch items att id _ hni => hni
  | succ fuel ih =>
    intro depth to_fetch items att id herr hni
    by_cases he : to_fetch.isEmpty
    · simp only [bfsWalkAux, he, if_true]
      exact hni
    · simp only [bfsWalkAux, he, if_false]
      exact ih _ _ _ _ id herr (processLevel_keys_err fetch max_depth depth
        to_fetch items att id herr hni)

/-- C6 — fetch-failure absorption: whatever the per-item fetch results,
`fetch_comments_flat` (here without storage, so that no storage error
interferes) returns `Ok` of the built tree — failures are never
propagated; every id passed to `fetch_item` lands in the Attempt Set;
and a failed id is never retained in the items map, so downstream it
behaves exactly like an absent node. -/
theorem claim_C6_fetch_failure_absorbed (fetch : Nat → Except ApiError HnItem)
    (story : Story) (max_depth : Nat) (force_refresh : Bool) :
    fetch_comments_flat fetch none story max_depth force_refresh
        = .ok (build_comment_tree (bfsWalk fetch max_depth story.kids).1
            (bfsWalk fetch max_depth story.kids).2.1 story.kids) ∧
      (∀ id ∈ (bfsWalk fetch max_depth story.kids).2.2.flatten,
        id ∈ (bfsWalk fetch max_depth story.kids).2.1) ∧
      (∀ id, (fetch id).isOk = false →
        id ∉ mapKeys (bfsWalk fetch max_depth story.kids).1) := by
  refine ⟨?_, ?_, ?_⟩
  · cases force_refresh <;> rfl
  · intro id h
    exact bfsWalkAux_calls_attempted fetch max_depth _ _ _ _ _ id (Or.inr h)
  · intro id herr
    exact bfsWalkAux_keys_err fetch max_depth _ _ _ _ _ id herr (by simp [mapKeys])

/-- Witness for C6: with `fetchW`, id 3 is fetched and fails; the call
still returns `Ok`, 3 is in the Attempt Set and not retained. -/
theorem claim_C6_witness :
    fetch_comments_flat fetchW none { id := 9, kids := [1] } 1 true
        = .ok (build_comment_tree (bfsWalk fetchW 1 [1]).1
            (bfsWalk fetchW 1 [1]).2.1 [1]) ∧
      3 ∈ (bfsWalk fetchW 1 [1]).2.2.flatten ∧
      3 ∈ (bfsWalk fetchW 1 [1]).2.1 ∧
      (fetchW 3).isOk = false ∧
      3 ∉ mapKeys (bfsWalk fetchW 1 [1]).1 :=
  ⟨(claim_C6_fetch_failure_absorbed fetchW { id := 9, kids := [1] } 1 true).1,
    by decide,
    (claim_C6_fetch_failure_absorbed fetchW { id := 9, kids := [1] } 1 true).2.1 3 (by decide),
    by decide,
    (claim_C6_fetch_failure_absorbed fetchW { id := 9, kids := [1] } 1 true).2.2 3 (by decide)⟩

/-- C7 — depth bound: the traversal runs at most `max_depth + 1`
frontier levels (so every id passed to `fetch_item` sits at a depth
`≤ max_depth`); with the fuel/depth linkage of the source loop, the walk
stops as soon as `depth > max_depth` or the frontier is empty, touching
nothing; and every member of the final Attempt Set was fetched at one of
the retained levels — ids beyond the bound are never attempted. -/
theorem claim_C7_depth_bound (fetch : Nat → Except ApiError HnItem) (max_depth : Nat)
    (story_kids : List Nat) :
    (bfsWalk fetch max_depth story_kids).2.2.length ≤ max_depth + 1 ∧
      (∀ (depth : Nat) (to_fetch : List Nat) (items : List (Nat × HnItem)) (att : List Nat),
        max_depth < depth →
        bfsWalkAux fetch max_depth (max_depth + 1 - depth) depth to_fetch items att
          = (items, att, [])) ∧
      (∀ (fuel depth : Nat) (items : List (Nat × HnItem)) (att : List Nat),
        bfsWalkAux fetch max_depth fuel depth [] items att = (items, att, [])) ∧
      (∀ id ∈ (bfsWalk fetch max_depth story_kids).2.1,
        id ∈ (bfsWalk fetch max_depth story_kids).2.2.flatten) := by
  refine ⟨bfsWalkAux_levels_length fetch max_depth _ _ _ _ _, ?_, ?_, ?_⟩
  · intro depth to_fetch items att hd
    have h0 : max_depth + 1 - depth = 0 := Nat.sub_eq_zero_of_le hd
    rw [h0]
    rfl
  · intro fuel depth items att
    cases fuel <;> rfl
  · intro id h
    rcases bfsWalkAux_attempted_sub fetch max_depth _ _ _ _ _ id h with h' | h'
    · cases h'
    · exact h'

/-- Witness for C7: with the bound 1, `fetchW` yields exactly two levels
`[[1], [3, 4]]` (the children `[5]` of the item retrieved at depth 1 are
not enqueued), and the quantified parts hold at depth 2 / empty
frontier. -/
theorem claim_C7_witness :
    (bfsWalk fetchW 1 [1]).2.2 = [[1], [3, 4]] ∧
      (bfsWalk fetchW 1 [1]).2.2.length ≤ 1 + 1 ∧
      1 + 1 < 2 + 1 ∧
      bfsWalkAux fetchW 1 (1 + 1 - 2) 2 [5] [] [] = ([], [], []) ∧
      bfsWalkAux fetchW 1 5 0 [] [] [] = ([], [], []) ∧
      42 ∉ (bfsWalk fetchW 1 [1]).2.1 :=
  ⟨by decide, (claim_C7_depth_bound fetchW 1 [1]).1, by decide,
    (claim_C7_depth_bound fetchW 1 [1]).2.1 2 [5] [] [] (by decide),
    (claim_C7_depth_bound fetchW 1 [1]).2.2.1 5 0 [] [],
    by decide⟩

/-- Counterexample to C4 as stated: the traversal succeeds and builds a
non-empty record list, the cache write fails, and `fetch_comments_flat`
returns the storage error — not `Ok` of the fetched records. -/
theorem claim_C4_counterexample :
    fetch_comments_flat fetchC4 (some failCommentStorage) { id := 9, kids := [1] } 0 true
        = .error (ApiError.storage "disk full") ∧
      build_comment_tree (bfsWalk fetchC4 0 [1]).1 (bfsWalk fetchC4 0 [1]).2.1 [1]
        = [{ id := 1, depth := 0 }] ∧
      ∀ l : List Comment,
        fetch_comments_flat fetchC4 (some failCommentStorage) { id := 9, kids := [1] } 0 true
          ≠ .ok l := by
  have h1 : fetch_comments_flat fetchC4 (some failCommentStorage)
      { id := 9, kids := [1] } 0 true = .error (ApiError.storage "disk full") := rfl
  have hbfs : bfsWalk fetchC4 0 [1] = ([(1, { id := 1 })], [1], [[1]]) := by decide
  refine ⟨h1, ?_, ?_⟩
  · rw [hbfs]
    simp [build_comment_tree, build_tree, buildTreeGo_item_found, buildTreeGo_nil,
      buildTreeGo_cons_none, findItem, eraseItem, mapKeys, Comment.ofItem]
  · intro l hl
    rw [h1] at hl
    cases hl

/-- C4, amended: a cache write error after a successful traversal is
propagated to the caller as an error (the `?` operator), discarding the
freshly fetched in-memory result — in `fetch_comments_flat` and in the
feed write-through of `fetch_stories_by_ids` alike. -/
theorem claim_C4_write_error_propagates :
    (∀ (fetch : Nat → Except ApiError HnItem) (st : CommentStorage) (story : Story)
        (max_depth : Nat) (e : ApiError),
      st.save_comments story.id (persistComments story.id
        (build_comment_tree (bfsWalk fetch max_depth story.kids).1
          (bfsWalk fetch max_depth story.kids).2.1 story.kids)) = .error e →
      fetch_comments_flat fetch (some st) story max_depth true = .error e) ∧
    (∀ (fetch : Nat → Except ApiError HnItem) (st : StoryStorage) (ids : List Nat)
        (e : ApiError),
      ids.isEmpty = false →
      saveAllStories st.save_story
        ((ids.filterMap (fun id => (fetch id).toOption)).filterMap Story.from_item)
        = .error e →
      fetch_stories_by_ids fetch (some st) ids true = .error e) := by
  constructor
  · intro fetch st story max_depth e hsave
    unfold fetch_comments_flat
    simp only [cacheHit, if_true]
    rw [hsave]
  · intro fetch st ids e hne hsave
    unfold fetch_stories_by_ids
    simp only [if_true, hne, Bool.false_eq_true, if_false]
    rw [hsave]

/-- Witness for the amended C4 at concrete inputs. -/
theorem claim_C4_witness :
    (failCommentStorage.save_comments 9 (persistComments 9
        (build_comment_tree (bfsWalk fetchC4 0 [1]).1
          (bfsWalk fetchC4 0 [1]).2.1 [1])) = .error (ApiError.storage "disk full") ∧
      fetch_comments_flat fetchC4 (some failCommentStorage) { id := 9, kids := [1] } 0 true
        = .error (ApiError.storage "disk full")) ∧
    (([1] : List Nat).isEmpty = false ∧
      saveAllStories failStoryStorage.save_story
        ((([1] : List Nat).filterMap (fun id => (fetchC9 id).toOption)).filterMap
          Story.from_item) = .error (ApiError.storage "disk full") ∧
      fetch_stories_by_ids fetchC9 (some failStoryStorage) [1] true
        = .error (ApiError.storage "disk full")) :=
  ⟨⟨rfl, claim_C4_write_error_propagates.1 fetchC4 failCommentStorage
      { id := 9, kids := [1] } 0 (ApiError.storage "disk full") rfl⟩,
    ⟨rfl, rfl,
      claim_C4_write_error_propagates.2 fetchC9 failStoryStorage [1]
        (ApiError.storage "disk full") rfl rfl⟩⟩

theorem levelContrib_sub {fetch : Nat → Except ApiError HnItem} {max_depth depth a k : Nat}
    (h : k ∈ levelContrib fetch max_depth depth a) :
    ∃ it, fetch a = .ok it ∧ k ∈ it.kids := by
  unfold levelContrib at h
  cases hf : fetch a with
  | error e => rw [hf] at h; cases h
  | ok item =>
    rw [hf] at h
    by_cases htomb : item.deleted.getD false || item.dead.getD false
    · simp [htomb] at h
    · by_cases hd : depth < max_depth
      · simp only [htomb, if_false, hd, if_true] at h
        exact ⟨item, rfl, h⟩
      · simp [htomb, hd] at h

theorem levelContrib_nodup {fetch : Nat → Except ApiError HnItem} {max_depth depth a : Nat}
    (h1 : ∀ a it, fetch a = .ok it → it.kids.Nodup) :
    (levelContrib fetch max_depth depth a).Nodup := by
  unfold levelContrib
  cases hf : fetch a with
  | error e => exact List.nodup_nil
  | ok item =>
    by_cases htomb : item.deleted.getD false || item.dead.getD false
    · simp [htomb]
    · by_cases hd : depth < max_depth
      · simp only [htomb, if_false, hd, if_true]
        exact h1 a item hf
      · simp [htomb, hd]

theorem next_frontier_nodup {fetch : Nat → Except ApiError HnItem} {roots : List Nat}
    (hforest : ForestRefs fetch roots) (max_depth depth : Nat)
    {ids : List Nat} (hids : ids.Nodup) :
    ((ids.map (levelContrib fetch max_depth depth)).flatten).Nodup := by
  rw [List.nodup_flatten]
  constructor
  · intro l hl
    rcases List.mem_map.1 hl with ⟨a, _, rfl⟩
    exact levelContrib_nodup hforest.2.1
  · rw [List.pairwise_map]
    refine hids.imp ?_
    intro a b hab k hka hkb
    rcases levelContrib_sub hka with ⟨ita, hfa, hma⟩
    rcases levelContrib_sub hkb with ⟨itb, hfb, hmb⟩
    exact hab (hforest.2.2.1 a b ita itb k hfa hfb hma hmb)

theorem bfsWalkAux_succ_ne (fetch : Nat → Except ApiError HnItem) (max_depth : Nat)
    {to_fetch : List Nat} (he : to_fetch.isEmpty = false)
    (fuel depth : Nat) (items : List (Nat × HnItem)) (att : List Nat) :
    bfsWalkAux fetch max_depth (fuel + 1) depth to_fetch items att
      = ((bfsWalkAux fetch max_depth fuel (depth + 1)
            (processLevel fetch max_depth depth to_fetch items att).2.2
            (processLevel fetch max_depth depth to_fetch items att).1
            (processLevel fetch max_depth depth to_fetch items att).2.1).1,
         (bfsWalkAux fetch max_depth fuel (depth + 1)
            (processLevel fetch max_depth depth to_fetch items att).2.2
            (processLevel fetch max_depth depth to_fetch items att).1
            (processLevel fetch max_depth depth to_fetch items att).2.1).2.1,
         to_fetch :: (bfsWalkAux fetch max_depth fuel (depth + 1)
            (processLevel fetch max_depth depth to_fetch items att).2.2
            (processLevel fetch max_depth depth to_fetch items att).1
            (processLevel fetch max_depth depth to_fetch items att).2.1).2.2) := by
  simp [bfsWalkAux, he]

theorem bfsWalkAux_calls_nodup {fetch : Nat → Except ApiError HnItem} {roots : List Nat}
    (hforest : ForestRefs fetch roots) (max_depth : Nat) :
    ∀ (fuel depth : Nat) (to_fetch : List Nat) (items : List (Nat × HnItem))
      (att seen : List Nat),
      (seen ++ to_fetch).Nodup →
      (∀ k ∈ seen ++ to_fetch, Prov fetch roots seen k) →
      (seen ++ (bfsWalkAux fetch max_depth fuel depth to_fetch items att).2.2.flatten).Nodup := by
  intro fuel
  induction fuel with
  | zero =>
    intro depth to_fetch items att seen hnd _
    simpa [bfsWalkAux] using hnd.of_append_left
  | succ fuel ih =>
    intro depth to_fetch items att seen hnd hprov
    by_cases he : to_fetch.isEmpty
    · simpa [bfsWalkAux, he] using hnd.of_append_left
    · rw [bfsWalkAux_succ_ne fetch max_depth (Bool.not_eq_true _ ▸ he) fuel depth items att]
      simp only [List.flatten_cons]
      rw [← List.append_assoc]
      rw [processLevel_next_eq]
      set next := (to_fetch.map (levelContrib fetch max_depth depth)).flatten with hnext
      have hdisj : (seen ++ to_fetch).Disjoint next := by
        intro k hk hknext
        rcases List.mem_flatten.1 hknext with ⟨l, hl, hkl⟩
        rcases List.mem_map.1 hl with ⟨a, ha, rfl⟩
        rcases levelContrib_sub hkl with ⟨ita, hfa, hma⟩
        rcases hprov k hk with hroot | ⟨p, hp, itp, hfp, hmp⟩
        · exact hforest.2.2.2 a ita hfa k hma hroot
        · have hpa : p = a := hforest.2.2.1 p a itp ita k hfp hfa hmp hma
          subst hpa
          exact (List.nodup_append.1 hnd).2.2 hp ha
      have hnd' : ((seen ++ to_fetch) ++ next).Nodup := by
        rw [List.nodup_append]
        exact ⟨hnd, next_frontier_nodup hforest max_depth depth
          (List.nodup_append.1 hnd).2.1, hdisj⟩
      have hprov' : ∀ k ∈ (seen ++ to_fetch) ++ next, Prov fetch roots (seen ++ to_fetch) k := by
        intro k hk
        rcases List.mem_append.1 hk with hk' | hk'
        · rcases hprov k hk' with hroot | ⟨p, hp, itp, hfp, hmp⟩
          · exact Or.inl hroot
          · exact Or.inr ⟨p, List.mem_append.2 (Or.inl hp), itp, hfp, hmp⟩
        · rcases List.mem_flatten.1 hk' with ⟨l, hl, hkl⟩
          rcases List.mem_map.1 hl with ⟨a, ha, rfl⟩
          rcases levelContrib_sub hkl with ⟨ita, hfa, hma⟩
          exact Or.inr ⟨a, List.mem_append.2 (Or.inr ha), ita, hfa, hma⟩
      exact ih _ _ _ _ _ hnd' hprov'

/-- C5, amended — at-most-one-fetch for forests: when the input children
arrays reference each identifier at most once (duplicate-free root list
and children lists, no shared children, no child pointing back at a
root), no identifier is passed to `fetch_item` more than once: the
concatenation of all frontiers is duplicate-free. -/
theorem claim_C5_at_most_one_fetch (fetch : Nat → Except ApiError HnItem)
    (max_depth : Nat) (story_kids : List Nat)
    (hforest : ForestRefs fetch story_kids) :
    ((bfsWalk fetch max_depth story_kids).2.2.flatten).Nodup := by
  have := bfsWalkAux_calls_nodup hforest max_depth (max_depth + 1) 0 story_kids [] [] []
    (by simpa using hforest.1) (fun k hk => Or.inl (by simpa using hk))
  simpa [bfsWalk] using this

/-- Counterexample to C5 as stated: the children arrays of
`fetchDiamond` contain no cycles (the rank strictly increases along
every reference), yet the traversal from roots `[1, 2]` passes id 3 to
`fetch_item` twice — the frontiers are `[[1, 2], [3, 3]]`. -/
theorem claim_C5_counterexample :
    (bfsWalk fetchDiamond 2 [1, 2]).2.2 = [[1, 2], [3, 3]] ∧
      ¬ ((bfsWalk fetchDiamond 2 [1, 2]).2.2.flatten).Nodup ∧
      (∀ a it, fetchDiamond a = .ok it → ∀ k ∈ it.kids, rankD a < rankD k) := by
  refine ⟨by decide, by decide, ?_⟩
  intro a it h k hk
  unfold fetchDiamond at h
  split_ifs at h with h1 h2 h3 <;>
    first
    | (cases h; simp_all [rankD])
    | simp_all [rankD]

theorem fetchT_forest : ForestRefs fetchT [1] := by
  refine ⟨by decide, ?_, ?_, ?_⟩
  · intro a it h
    unfold fetchT at h
    split_ifs at h <;> first | (cases h; decide) | simp_all
  · intro a b ita itb k ha hb hka hkb
    unfold fetchT at ha hb
    split_ifs at ha hb <;>
      first
      | (cases ha; cases hb; simp_all)
      | simp_all
  · intro a it h k hk
    unfold fetchT at h
    split_ifs at h <;>
      first
      | (cases h; simp_all; omega)
      | (cases h; simp_all)
      | simp_all

/-- Witness for the amended C5: the tree `1 → [2, 3]` satisfies the
forest hypothesis and each id is fetched exactly once. -/
theorem claim_C5_witness :
    ForestRefs fetchT [1] ∧ (bfsWalk fetchT 2 [1]).2.2.flatten = [1, 2, 3] ∧
      ((bfsWalk fetchT 2 [1]).2.2.flatten).Nodup :=
  ⟨fetchT_forest, by decide, claim_C5_at_most_one_fetch fetchT 2 [1] fetchT_forest⟩

theorem scanCache_lengths (get_fresh : Nat → Option Story) :
    ∀ ids : List Nat,
      (scanCache get_fresh ids).1.length + (scanCache get_fresh ids).2.length = ids.length := by
  intro ids
  induction ids with
  | nil => rfl
  | cons id rest ih =>
    simp only [scanCache]
    cases get_fresh id <;> simp [ih] <;> omega

theorem scanCache_eq (get_fresh : Nat → Option Story) :
    ∀ ids : List Nat,
      scanCache get_fresh ids
        = (ids.filterMap get_fresh, ids.filter (fun id => (get_fresh id).isNone)) := by
  intro ids
  induction ids with
  | nil => rfl
  | cons id rest ih =>
    simp only [scanCache, ih]
    cases h : get_fresh id <;> simp [List.filterMap_cons, List.filter_cons, h]

/-- Inversion of a successful `fetch_stories_by_ids`: the result is the
position-sort of the cache hits (in scan order) followed by the
successfully fetched and projected misses (in `to_fetch` order). -/
theorem fetch_stories_by_ids_inv {fetch : Nat → Except ApiError HnItem}
    {storage : Option StoryStorage} {ids : List Nat} {force_refresh : Bool}
    {ss : List Story}
    (h : fetch_stories_by_ids fetch storage ids force_refresh = .ok ss) :
    ∃ (cached : List Story) (to_fetch : List Nat),
      ((cached, to_fetch) = (([] : List Story), ids) ∨
        ∃ st, storage = some st ∧ (cached, to_fetch) = scanCache st.get_fresh_story ids) ∧
      ss = sortByPosition ids (cached ++
        ((to_fetch.filterMap (fun id => (fetch id).toOption)).filterMap Story.from_item)) := by
  cases storage with
  | none =>
    refine ⟨[], ids, Or.inl rfl, ?_⟩
    replace h : (if ids.isEmpty then (Except.ok (sortByPosition ids []) : Except ApiError (List Story))
        else .ok (sortByPosition ids ([] ++
          ((ids.filterMap (fun id => (fetch id).toOption)).filterMap Story.from_item))))
        = .ok ss := by
      cases force_refresh <;> exact h
    by_cases he : ids.isEmpty
    · rw [if_pos he] at h
      injection h with h2
      subst h2
      have hx : ids = [] := List.isEmpty_iff.1 he
      subst hx
      rfl
    · rw [if_neg he] at h
      injection h with h2
      subst h2
      rfl
  | some st =>
    cases force_refresh with
    | true =>
      refine ⟨[], ids, Or.inl rfl, ?_⟩
      replace h : (if ids.isEmpty then (Except.ok (sortByPosition ids []) : Except ApiError (List Story))
          else (match saveAllStories st.save_story
              ((ids.filterMap (fun id => (fetch id).toOption)).filterMap Story.from_item) with
            | .error e => Except.error e
            | .ok _ => .ok (sortByPosition ids ([] ++
                ((ids.filterMap (fun id => (fetch id).toOption)).filterMap Story.from_item)))))
          = .ok ss := h
      by_cases he : ids.isEmpty
      · rw [if_pos he] at h
        injection h with h2
        subst h2
        have hx : ids = [] := List.isEmpty_iff.1 he
        subst hx
        rfl
      · rw [if_neg he] at h
        split at h
        · cases h
        · injection h with h2
          subst h2
          rfl
    | false =>
      refine ⟨(scanCache st.get_fresh_story ids).1, (scanCache st.get_fresh_story ids).2,
        Or.inr ⟨st, rfl, rfl⟩, ?_⟩
      replace h : (if (scanCache st.get_fresh_story ids).2.isEmpty then
            (Except.ok (sortByPosition ids (scanCache st.get_fresh_story ids).1) : Except ApiError (List Story))
          else (match saveAllStories st.save_story
              (((scanCache st.get_fresh_story ids).2.filterMap
                (fun id => (fetch id).toOption)).filterMap Story.from_item) with
            | .error e => Except.error e
            | .ok _ => .ok (sortByPosition ids ((scanCache st.get_fresh_story ids).1 ++
                (((scanCache st.get_fresh_story ids).2.filterMap
                  (fun id => (fetch id).toOption)).filterMap Story.from_item)))))
          = .ok ss := h
      by_cases he : (scanCache st.get_fresh_story ids).2.isEmpty
      · rw [if_pos he] at h
        injection h with h2
        subst h2
        have hx : (scanCache st.get_fresh_story ids).2 = [] := List.isEmpty_iff.1 he
        rw [hx]
        simp
      · rw [if_neg he] at h
        split at h
        · cases h
        · injection h with h2
          subst h2
          rfl

theorem fetch_stories_by_ids_length {fetch : Nat → Except ApiError HnItem}
    {storage : Option StoryStorage} {ids : List Nat} {force_refresh : Bool}
    {ss : List Story}
    (h : fetch_stories_by_ids fetch storage ids force_refresh = .ok ss) :
    ss.length ≤ ids.length := by
  rcases fetch_stories_by_ids_inv h with ⟨cached, to_fetch, hscan, rfl⟩
  have hsort : (sortByPosition ids (cached ++
      ((to_fetch.filterMap (fun id => (fetch id).toOption)).filterMap Story.from_item))).length
      = cached.length + ((to_fetch.filterMap (fun id => (fetch id).toOption)).filterMap
          Story.from_item).length := by
    unfold sortByPosition
    rw [List.length_mergeSort, List.length_append]
  rw [hsort]
  have hf : ((to_fetch.filterMap (fun id => (fetch id).toOption)).filterMap
      Story.from_item).length ≤ to_fetch.length :=
    Nat.le_trans (List.length_filterMap_le _ _) (List.length_filterMap_le _ _)
  rcases hscan with heq | ⟨st, _, heq⟩
  · have h1 : cached = [] := congrArg Prod.fst heq
    have h2 : to_fetch = ids := congrArg Prod.snd heq
    subst h1
    subst h2
    simpa using hf
  · have hlen := scanCache_lengths st.get_fresh_story ids
    have h1 : cached = (scanCache st.get_fresh_story ids).1 := congrArg Prod.fst heq
    have h2 : to_fetch = (scanCache st.get_fresh_story ids).2 := congrArg Prod.snd heq
    subst h1
    subst h2
    omega

/-- C10 — page bounds: `fetch_stories` returns at most `PAGE_SIZE` (30)
stories, and when the page's start offset is at or beyond the end of the
feed-id list it returns `Ok` of the empty sequence; the slice bounds are
clamped to the list. -/
theorem claim_C10_page_bounds (fetch : Nat → Except ApiError HnItem)
    (storage : Option StoryStorage) (feed_ids : Except ApiError (List Nat))
    (page : Nat) (force_refresh : Bool) :
    (∀ ids, feed_ids = .ok ids → ids.length ≤ page * PAGE_SIZE →
      fetch_stories fetch storage feed_ids page force_refresh = .ok []) ∧
    (∀ ss, fetch_stories fetch storage feed_ids page force_refresh = .ok ss →
      ss.length ≤ PAGE_SIZE) := by
  constructor
  · intro ids hfeed hlen
    subst hfeed
    unfold fetch_stories
    dsimp only
    rw [if_pos hlen]
  · intro ss h
    unfold fetch_stories at h
    cases feed_ids with
    | error e => cases h
    | ok ids =>
      dsimp only at h
      by_cases hs : page * PAGE_SIZE ≥ ids.length
      · rw [if_pos hs] at h
        injection h with h2
        subst h2
        simp [PAGE_SIZE]
      · rw [if_neg hs] at h
        have hlen := fetch_stories_by_ids_length h
        have hslice : ((ids.drop (page * PAGE_SIZE)).take
            (min (page * PAGE_SIZE + PAGE_SIZE) ids.length - page * PAGE_SIZE)).length
            ≤ PAGE_SIZE := by
          refine Nat.le_trans (List.length_take_le _ _) ?_
          have := Nat.min_le_left (page * PAGE_SIZE + PAGE_SIZE) ids.length
          omega
        exact Nat.le_trans hlen hslice

/-- Witness for C10: a two-id feed: page 1 starts at offset 30 ≥ 2 and
returns the empty page; page 0 returns one story (id 2 fails to fetch),
within the 30-story bound. -/
theorem claim_C10_witness :
    (([1, 2] : List Nat).length ≤ 1 * PAGE_SIZE ∧
      fetch_stories fetchC9 none (.ok [1, 2]) 1 false = .ok []) ∧
    (fetch_stories fetchC9 none (.ok [1, 2]) 0 false
        = .ok [{ id := 1, title := "a", author := "bob" }] ∧
      ([({ id := 1, title := "a", author := "bob" } : Story)]).length ≤ PAGE_SIZE) := by
  have hev : fetch_stories fetchC9 none (.ok [1, 2]) 0 false
      = .ok [{ id := 1, title := "a", author := "bob" }] := by
    unfold fetch_stories fetch_stories_by_ids
    simp [PAGE_SIZE, fetchC9, Story.from_item, sortByPosition, List.mergeSort_singleton,
      List.filterMap_cons, Except.toOption]
  refine ⟨⟨by decide, ?_⟩, hev, ?_⟩
  · exact (claim_C10_page_bounds fetchC9 none (.ok [1, 2]) 1 false).1 [1, 2] rfl (by decide)
  · exact (claim_C10_page_bounds fetchC9 none (.ok [1, 2]) 0 false).2
      [{ id := 1, title := "a", author := "bob" }] hev

theorem Story.from_item_id {item : HnItem} {s : Story}
    (h : Story.from_item item = some s) : s.id = item.id := by
  unfold Story.from_item at h
  cases ht : item.title with
  | none => rw [ht] at h; cases h
  | some t =>
    cases ha : item.author with
    | none => rw [ht, ha] at h; cases h
    | some a =>
      rw [ht, ha] at h
      injection h with h2
      subst h2
      rfl

theorem Except.toOption_eq_some {e : Except ApiError HnItem} {it : HnItem}
    (h : e.toOption = some it) : e = .ok it := by
  cases e with
  | error err => cases h
  | ok v => cases h; rfl

/-- Projecting the ids out of a filterMap whose outputs carry their
input's id gives the filter of the surviving inputs. -/
theorem map_id_filterMap_eq_filter {β : Type} (F : Nat → Option β) (idOf : β → Nat)
    (hF : ∀ x y, F x = some y → idOf y = x) :
    ∀ l : List Nat, (l.filterMap F).map idOf = l.filter (fun x => (F x).isSome) := by
  intro l
  induction l with
  | nil => rfl
  | cons x l ih =>
    cases hx : F x with
    | none => simp [List.filterMap_cons, hx, List.filter_cons, ih]
    | some y => simp [List.filterMap_cons, hx, List.filter_cons, hF x y hx, ih]

theorem indexOf?_isSome_of_mem {l : List Nat} {w : Nat} (h : w ∈ l) :
    ∃ i, l.indexOf? w = some i := by
  cases hf : l.indexOf? w with
  | none =>
    exfalso
    rw [List.indexOf?, List.findIdx?_eq_none_iff] at hf
    simpa using hf w h
  | some i => exact ⟨i, rfl⟩

theorem idPosition_cons_self (a : Nat) (rest : List Nat) :
    idPosition (a :: rest) a = 0 := by
  simp [idPosition, List.indexOf?, List.findIdx?_cons]

theorem idPosition_cons_ne {a w : Nat} (rest : List Nat) (hne : w ≠ a) (hmem : w ∈ rest) :
    idPosition (a :: rest) w = idPosition rest w + 1 ∧ idPosition rest w < USIZE_MAX ∨
      idPosition (a :: rest) w = idPosition rest w + 1 := by
  rcases indexOf?_isSome_of_mem hmem with ⟨i, hi⟩
  refine Or.inr ?_
  have hcons : (a :: rest).indexOf? w = some (i + 1) := by
    rw [List.indexOf?, List.findIdx?_cons]
    have : (a == w) = false := by
      simp only [beq_eq_false_iff_ne, ne_eq]
      exact fun e => hne e.symm
    rw [this]
    simp only [Bool.false_eq_true, if_false]
    rw [List.findIdx?_succ]
    rw [List.indexOf?] at hi
    rw [hi]
    rfl
  simp [idPosition, hcons, hi]

theorem idPosition_cons_ne_eq {a w : Nat} (rest : List Nat) (hne : w ≠ a) (hmem : w ∈ rest) :
    idPosition (a :: rest) w = idPosition rest w + 1 := by
  rcases idPosition_cons_ne rest hne hmem with ⟨h, _⟩ | h <;> exact h

/-- A duplicate-free list of members of `ids`, weakly sorted by position
in `ids`, is a sublist of `ids`. -/
theorem sublist_of_pos_sorted :
    ∀ (ids xs : List Nat), ids.Nodup → (∀ x ∈ xs, x ∈ ids) → xs.Nodup →
      xs.Pairwise (fun p q => idPosition ids p ≤ idPosition ids q) →
      xs.Sublist ids := by
  intro ids
  induction ids with
  | nil =>
    intro xs _ hmem _ _
    cases xs with
    | nil => exact List.Sublist.refl _
    | cons x xs' => exact absurd (hmem x (List.mem_cons_self _ _)) (List.not_mem_nil x)
  | cons a rest ih =>
    intro xs hids hmem hnd hsorted
    have hanotin : a ∉ rest := (List.nodup_cons.1 hids).1
    have hrestnd : rest.Nodup := (List.nodup_cons.1 hids).2
    cases xs with
    | nil => exact List.nil_sublist _
    | cons x xs' =>
      have hxnotin : x ∉ xs' := (List.nodup_cons.1 hnd).1
      have hxs'nd : xs'.Nodup := (List.nodup_cons.1 hnd).2
      by_cases hxa : x = a
      · subst hxa
        have hmem' : ∀ y ∈ xs', y ∈ rest := by
          intro y hy
          rcases List.mem_cons.1 (hmem y (List.mem_cons_of_mem _ hy)) with rfl | h
          · exact absurd hy hxnotin
          · exact h
        have hsorted' : xs'.Pairwise (fun p q => idPosition rest p ≤ idPosition rest q) := by
          refine ((List.pairwise_cons.1 hsorted).2).imp_of_mem ?_
          intro p q hp hq hpq
          have hpne : p ≠ x := fun e => hxnotin (e ▸ hp)
          have hqne : q ≠ x := fun e => hxnotin (e ▸ hq)
          rw [idPosition_cons_ne_eq rest hpne (hmem' p hp),
            idPosition_cons_ne_eq rest hqne (hmem' q hq)] at hpq
          omega
        exact List.Sublist.cons₂ x (ih xs' hrestnd hmem' hxs'nd hsorted')
      · have hxrest : x ∈ rest := by
          rcases List.mem_cons.1 (hmem x (List.mem_cons_self _ _)) with h | h
          · exact absurd h hxa
          · exact h
        have hall : ∀ y ∈ x :: xs', y ∈ rest := by
          intro y hy
          rcases List.mem_cons.1 hy with rfl | hy'
          · exact hxrest
          · rcases List.mem_cons.1 (hmem y (List.mem_cons_of_mem _ hy')) with rfl | h
            · exfalso
              have hle := (List.pairwise_cons.1 hsorted).1 y hy'
              rw [idPosition_cons_ne_eq rest hxa hxrest, idPosition_cons_self] at hle
              omega
            · exact h
        have hsorted' : (x :: xs').Pairwise (fun p q => idPosition rest p ≤ idPosition rest q) := by
          refine hsorted.imp_of_mem ?_
          intro p q hp hq hpq
          have hpne : p ≠ a := fun e => hanotin (e ▸ hall p hp)
          have hqne : q ≠ a := fun e => hanotin (e ▸ hall q hq)
          rw [idPosition_cons_ne_eq rest hpne (hall p hp),
            idPosition_cons_ne_eq rest hqne (hall q hq)] at hpq
          omega
        exact List.Sublist.cons a (ih (x :: xs') hrestnd hall hnd hsorted')

/-- C9 — story order: with pairwise-distinct input ids and well-formed
oracles (a fetched item and a cached story carry the id they were asked
for), every story list returned by `fetch_stories_by_ids` has its ids
forming a sublist of the input ids: every returned story's id is drawn
from the input slice and the stories appear in input order, regardless
of whether each story came from the cache or the network. -/
theorem claim_C9_story_order (fetch : Nat → Except ApiError HnItem)
    (storage : Option StoryStorage) (ids : List Nat) (force_refresh : Bool)
    (ss : List Story)
    (hids : ids.Nodup)
    (hfetch : ∀ id it, fetch id = .ok it → it.id = id)
    (hcache : ∀ st, storage = some st → ∀ id s, st.get_fresh_story id = some s → s.id = id)
    (h : fetch_stories_by_ids fetch storage ids force_refresh = .ok ss) :
    (ss.map (fun s => s.id)).Sublist ids := by
  rcases fetch_stories_by_ids_inv h with ⟨cached, to_fetch, hscan, rfl⟩
  set Fc : Nat → Option Story :=
    fun id => ((fetch id).toOption).bind Story.from_item with hFc
  have hFcid : ∀ x y, Fc x = some y → y.id = x := by
    intro x y hxy
    rw [hFc] at hxy
    replace hxy : ((fetch x).toOption).bind Story.from_item = some y := hxy
    cases hopt : (fetch x).toOption with
    | none => rw [hopt] at hxy; cases hxy
    | some it =>
      rw [hopt] at hxy
      replace hxy : Story.from_item it = some y := hxy
      have hit := hfetch x it (Except.toOption_eq_some hopt)
      rw [Story.from_item_id hxy, hit]
  have hfetched : (to_fetch.filterMap (fun id => (fetch id).toOption)).filterMap
      Story.from_item = to_fetch.filterMap Fc := by
    rw [List.filterMap_filterMap]
  have hfid : ((to_fetch.filterMap Fc).map (fun s => s.id))
      = to_fetch.filter (fun x => (Fc x).isSome) :=
    map_id_filterMap_eq_filter Fc (fun s => s.id) hFcid to_fetch
  -- facts per scan case
  have hfacts : (∀ s ∈ cached, s.id ∈ ids) ∧ (cached.map (fun s => s.id)).Nodup ∧
      to_fetch.Sublist ids ∧
      (cached.map (fun s => s.id)).Disjoint (to_fetch.filter (fun x => (Fc x).isSome)) := by
    rcases hscan with heq | ⟨st, hst, heq⟩
    · have h1 : cached = [] := congrArg Prod.fst heq
      have h2 : to_fetch = ids := congrArg Prod.snd heq
      subst h1
      subst h2
      exact ⟨fun s hs => absurd hs (List.not_mem_nil s), List.nodup_nil,
        List.Sublist.refl _, fun x hx => absurd hx (List.not_mem_nil x)⟩
    · have hcok : ∀ id s, st.get_fresh_story id = some s → s.id = id := hcache st hst
      rw [scanCache_eq] at heq
      have h1 : cached = ids.filterMap st.get_fresh_story := congrArg Prod.fst heq
      have h2 : to_fetch = ids.filter (fun id => (st.get_fresh_story id).isNone) :=
        congrArg Prod.snd heq
      subst h1
      subst h2
      have hcid : ((ids.filterMap st.get_fresh_story).map (fun s => s.id))
          = ids.filter (fun x => (st.get_fresh_story x).isSome) :=
        map_id_filterMap_eq_filter st.get_fresh_story (fun s => s.id)
          (fun x y hxy => hcok x y hxy) ids
      refine ⟨?_, ?_, List.filter_sublist ids, ?_⟩
      · intro s hs
        have : s.id ∈ (ids.filterMap st.get_fresh_story).map (fun s => s.id) :=
          List.mem_map.2 ⟨s, hs, rfl⟩
        rw [hcid] at this
        exact List.mem_of_mem_filter this
      · rw [hcid]
        exact (List.filter_sublist ids).nodup hids
      · rw [hcid]
        intro x hx hx'
        have hsome := List.of_mem_filter hx
        rcases List.mem_filter.1 hx' with ⟨hmemf, hfc⟩
        have hnone := List.of_mem_filter hmemf
        cases hg : st.get_fresh_story x <;> simp_all
  obtain ⟨hcmem, hcnd, htf, hdisj⟩ := hfacts
  -- the pre-sort list and its ids
  set pre := cached ++ to_fetch.filterMap Fc with hpre
  have hprememid : ∀ x ∈ pre.map (fun s => s.id), x ∈ ids := by
    intro x hx
    rcases List.mem_map.1 hx with ⟨s, hs, rfl⟩
    rcases List.mem_append.1 hs with hs' | hs'
    · exact hcmem s hs'
    · have : s.id ∈ (to_fetch.filterMap Fc).map (fun s => s.id) :=
        List.mem_map.2 ⟨s, hs', rfl⟩
      rw [hfid] at this
      exact htf.subset (List.mem_of_mem_filter this)
  have hprend : (pre.map (fun s => s.id)).Nodup := by
    rw [hpre, List.map_append, List.nodup_append]
    refine ⟨hcnd, ?_, ?_⟩
    · rw [hfid]
      exact (List.filter_sublist to_fetch).nodup (htf.nodup hids)
    · rw [hfid]
      exact hdisj
  -- the sorted result
  have hperm : (sortByPosition ids pre).Perm pre := by
    unfold sortByPosition
    exact List.mergeSort_perm pre _
  have hsorted : (sortByPosition ids pre).Pairwise
      (fun p q => idPosition ids p.id ≤ idPosition ids q.id) := by
    unfold sortByPosition
    have := @List.sorted_mergeSort Story
      (fun a b => decide (idPosition ids a.id ≤ idPosition ids b.id))
      (fun a b c hab hbc => by
        simp only [decide_eq_true_eq] at hab hbc ⊢
        omega)
      (fun a b => by
        simp only [Bool.or_eq_true, decide_eq_true_eq]
        omega)
      pre
    exact this.imp (fun hab => by simpa using hab)
  rw [hfetched]
  refine sublist_of_pos_sorted ids _ hids ?_ ?_ ?_
  · intro x hx
    rcases List.mem_map.1 hx with ⟨s, hs, rfl⟩
    exact hprememid _ (List.mem_map.2 ⟨s, hperm.mem_iff.1 hs, rfl⟩)
  · have : ((sortByPosition ids pre).map (fun s => s.id)).Perm (pre.map (fun s => s.id)) :=
      hperm.map _
    exact this.nodup_iff.2 hprend
  · rw [List.pairwise_map]
    exact hsorted

/-- Witness for C9: ids `[1, 2]`, id 2 fails to fetch: the returned
ids `[1]` are a sublist of the input. -/
theorem claim_C9_witness :
    ([1, 2] : List Nat).Nodup ∧
      fetch_stories_by_ids fetchC9 none [1, 2] false
        = .ok [{ id := 1, title := "a", author := "bob" }] ∧
      (([({ id := 1, title := "a", author := "bob" } : Story)]).map
        (fun s => s.id)).Sublist [1, 2] := by
  have hev : fetch_stories_by_ids fetchC9 none [1, 2] false
      = .ok [{ id := 1, title := "a", author := "bob" }] := by
    unfold fetch_stories_by_ids
    simp [fetchC9, Story.from_item, sortByPosition, List.mergeSort_singleton,
      List.filterMap_cons, Except.toOption]
  refine ⟨by decide, hev, ?_⟩
  refine claim_C9_story_order fetchC9 none [1, 2] false _ (by decide) ?_ ?_ hev
  · intro id it h
    unfold fetchC9 at h
    split_ifs at h <;> first | (cases h; simp_all) | simp_all
  · intro st hst
    cases hst

/-- `{1→[2,3], 2→[4,5], 3→[6], 6→[7]}`, roots `[1]` ⇒ order
`[1,2,4,5,3,6,7]`, depths `[0,1,2,2,1,2,3]`. -/
theorem scenario_seven_nodes :
    (build_comment_tree exItems [1, 2, 3, 4, 5, 6, 7] [1]).map (fun c => (c.id, c.depth))
      = [(1, 0), (2, 1), (4, 2), (5, 2), (3, 1), (6, 2), (7, 3)] := by
  simp [build_comment_tree, build_tree, exItems, buildTreeGo_nil, buildTreeGo_cons_none,
    buildTreeGo_item_found, findItem, eraseItem, mapKeys, Comment.ofItem]

/-- Roots `[10, 20]`, `10→[11]`, `20→[21]`, `21→[22]` ⇒ order
`[10, 11, 20, 21, 22]`. -/
theorem scenario_two_roots :
    (build_comment_tree
      [(10, { id := 10, kids := [11] }), (11, { id := 11 }), (20, { id := 20, kids := [21] }),
       (21, { id := 21, kids := [22] }), (22, { id := 22 })]
      [10, 11, 20, 21, 22] [10, 20]).map (fun c => c.id) = [10, 11, 20, 21, 22] := by
  simp [build_comment_tree, build_tree, buildTreeGo_nil, buildTreeGo_cons_none,
    buildTreeGo_item_found, findItem, eraseItem, mapKeys, Comment.ofItem]

/-- `1→[999]`, 999 attempted and missing ⇒ output `[1]` with empty
children. -/
theorem scenario_deleted_child :
    (build_comment_tree [(1, { id := 1, kids := [999] })] [1, 999] [1]).map
      (fun c => (c.id, c.kids)) = [(1, [])] := by
  simp [build_comment_tree, build_tree, buildTreeGo_nil, buildTreeGo_cons_none,
    buildTreeGo_item_found, findItem, eraseItem, mapKeys, Comment.ofItem]

/-- `1→[999]`, 999 beyond the depth bound (never attempted) ⇒ output
`[1]` with children still `[999]`. -/
theorem scenario_depth_bounded_child :
    (build_comment_tree [(1, { id := 1, kids := [999] })] [1] [1]).map
      (fun c => (c.id, c.kids)) = [(1, [999])] := by
  simp [build_comment_tree, build_tree, buildTreeGo_nil, buildTreeGo_cons_none,
    buildTreeGo_item_found, findItem, eraseItem, mapKeys, Comment.ofItem]

/-- Witness for C3: with children `[2, 3]`, child 2 retained and child 3
attempted-and-missing, the emitted record keeps exactly `[2]`. -/
theorem claim_C3_witness :
    KeyedById ex3Items ∧ ex3Comment ∈ build_comment_tree ex3Items [2, 3] [1] ∧
      ∃ it : HnItem, (ex3Comment.id, it) ∈ ex3Items ∧
        ex3Comment.kids = it.kids.filter
          (fun kid_id => !([2, 3] : List Nat).contains kid_id ||
            (mapKeys ex3Items).contains kid_id) ∧
        (∀ kid ∈ it.kids, kid ∈ ([2, 3] : List Nat) → kid ∉ mapKeys ex3Items →
          kid ∉ ex3Comment.kids) ∧
        (∀ kid ∈ it.kids, kid ∉ ([2, 3] : List Nat) → kid ∈ ex3Comment.kids) ∧
        ((∀ kid ∈ it.kids, kid ∈ ([2, 3] : List Nat) ∧ kid ∉ mapKeys ex3Items) →
          ex3Comment.kids = []) := by
  have hmem : ex3Comment ∈ build_comment_tree ex3Items [2, 3] [1] := by
    simp [build_comment_tree, build_tree, ex3Items, ex3Comment, buildTreeGo_nil,
      buildTreeGo_cons_none, buildTreeGo_item_found, findItem, eraseItem, mapKeys,
      Comment.ofItem]
  exact ⟨by decide, hmem,
    claim_C3_tombstone_pruning ex3Items [2, 3] [1] (by decide) ex3Comment hmem⟩

end HnCore

